import Mathlib

/-!
# Genetic image evolution (`main.go`): embedding and verified properties

The Go program evolves a population of pixel buffers toward a target image.
This file embeds its pure core in Lean and proves properties of it.

Modelling conventions.

* A `uint8` sample is a `Fin 256`; only its value `x.val : Nat` is used in arithmetic.
* `uint64` arithmetic is arithmetic on `Nat` reduced modulo `2 ^ 64`.
* `int64` arithmetic is arithmetic on `Int` wrapped into `[-2 ^ 63, 2 ^ 63)` by `wrapInt64`.
* A Go slice is the `List` of its elements. Where a slice expression can reach past the length
  (`createPool`), the elements of the backing array between length and capacity are a second
  list; every slice the program makes itself (`make([]TwoD, n)`) has none.
* A run-time panic (index or slice bound out of range, `rand.Intn` of a non-positive bound,
  `make` with a negative length) is the result `none`.
* `*image.RGBA` buffers are values: the program never writes through a shared buffer, since
  `breed` allocates the only buffer that `mutate` writes to.
* In-place effects are returned explicitly: `createPool` returns the sorted population
  together with the pool.
* Random draws are inputs. `rand.Intn n` is `randIntn n raw` for an arbitrary raw draw,
  `rand.Float64 ()` is an arbitrary rational handed in by the caller.
-/

namespace GeneticAlgo

/-! ## Data model -/

/-- One `uint8` sample of a pixel buffer. -/
abbrev Byte := Fin 256

/-- Go `image.Point`. -/
structure Point where
  X : Int
  Y : Int
deriving DecidableEq

/-- Go `image.Rectangle`. -/
structure Rectangle where
  Min : Point
  Max : Point
deriving DecidableEq

/-- Go `image.RGBA`: the samples, the row stride and the extent. -/
structure RGBA where
  Pix : List Byte
  Stride : Int
  Rect : Rectangle
deriving DecidableEq

/-- Go `type TwoD struct { DNA *image.RGBA; Fitness int64 }`. -/
structure TwoD where
  DNA : RGBA
  Fitness : Int
deriving DecidableEq

/-! ## Machine integers -/

/-- Reduction of an integer into the `int64` range `[-2 ^ 63, 2 ^ 63)` (two-complement wrap).
It is both the result of an overflowing `int64` operation and the conversion `int64(u)` of a
`uint64` value `u`. -/
def wrapInt64 (z : Int) : Int := (z + 2 ^ 63) % 2 ^ 64 - 2 ^ 63

/-- Go `a + b` on `int64`. -/
def int64Add (a b : Int) : Int := wrapInt64 (a + b)

/-- Go `a - b` on `int64`. -/
def int64Sub (a b : Int) : Int := wrapInt64 (a - b)

/-- Go `rand.Intn(n)`: panics when `n <= 0`, otherwise some value of `[0, n)`; every value of
that interval is reached by some raw draw. -/
def randIntn (n : Nat) (raw : Nat) : Option Nat :=
  if n = 0 then none else some (raw % n)

/-! ## Distance (`diff`, `sqareDifference`) -/

/-- Go `sqareDifference`: `d := uint64(x) - uint64(y); return d * d`, both modulo `2 ^ 64`. -/
def sqareDifference (x y : Byte) : Nat :=
  let d := (x.val + 2 ^ 64 - y.val) % 2 ^ 64
  (d * d) % 2 ^ 64

/-- The loop of `diff`: `for i := 0; i < len(a.Pix); i++ { d += int64(sqareDifference(a.Pix[i],
b.Pix[i])) }`, walking both sample sequences in step. Reading `b.Pix[i]` past the end of `b.Pix`
panics; samples of `b.Pix` beyond `len(a.Pix)` are never read. -/
def diffLoop : List Byte → List Byte → Int → Option Int
  | [], _, d => some d
  | _ :: _, [], _ => none
  | x :: xs, y :: ys, d => diffLoop xs ys (int64Add d (wrapInt64 (sqareDifference x y)))

/-- Go `int64(math.Sqrt(float64(d)))`. For `0 <= d < 2 ^ 52` the conversion to `float64` is
exact and the correctly rounded square root truncates to the floor of the real square root,
which is what this definition returns. Outside that range the Go expression can differ from
this definition: beyond `2 ^ 52` the rounded root can exceed the floor by one, and on a
negative (wrapped) `d` the root is not a number and its conversion depends on the platform.
The theorems that use the value carry the range as a hypothesis. -/
def sqrtInt64 (d : Int) : Int := (Nat.sqrt d.toNat : Int)

/-- Go `diff(a, b)`. -/
def diff (a b : RGBA) : Option Int :=
  (diffLoop a.Pix b.Pix 0).map sqrtInt64

/-- The sum over all positions of the squared true difference of the two byte values, as the
distance contract words it; positions beyond the shorter sequence do not count. -/
def sumSquaredDifferences (xs ys : List Byte) : Int :=
  (List.zipWith (fun x y => ((x.val : Int) - (y.val : Int)) ^ 2) xs ys).sum

/-! ## Selection pool (`createPool`) -/

/-- The comparison closure handed to `sort.SliceStable` in `createPool`:
`population[i].Fitness < population[j].Fitness`. -/
def less (a b : TwoD) : Bool := decide (a.Fitness < b.Fitness)

/-- Insertion of `x` in front of an already sorted list whose members all came after `x`:
`x` passes exactly the members that are strictly less than it. -/
def insertStable (lt : TwoD → TwoD → Bool) (x : TwoD) : List TwoD → List TwoD
  | [] => [x]
  | y :: ys => if lt y x then y :: insertStable lt x ys else x :: y :: ys

/-- Go `sort.SliceStable(s, lt)`: the stable sort of `s` by `lt`, as an insertion sort. -/
def sortSliceStable (lt : TwoD → TwoD → Bool) : List TwoD → List TwoD
  | [] => []
  | x :: xs => insertStable lt x (sortSliceStable lt xs)

/-- Go `createPool(population, target)` for the global `PoolSize`. `population` holds the
`len(population)` elements of the slice and `spare` the elements of its backing array between
the length and the capacity, which the sort does not touch. The result is the population as
the in-place sort leaves it, and the pool. The unused `target` argument is dropped.

* `population[0 : PoolSize+1]` panics unless `0 <= PoolSize+1 <= cap(population)`, and it
  reaches into the spare elements when `PoolSize+1 > len(population)`;
* `top[len(top)-1]` and `top[0]` panic on an empty `top`;
* the inner loop appends `top[i]` once for each `n` with `0 <= n < num`. -/
def createPool (PoolSize : Int) (population spare : List TwoD) :
    Option (List TwoD × List TwoD) :=
  let population := sortSliceStable less population
  if PoolSize + 1 < 0 ∨ ((population.length + spare.length : Nat) : Int) < PoolSize + 1 then none
  else
    let top := (population ++ spare).take (PoolSize + 1).toNat
    match top.getLast?, top.head? with
    | some last, some first =>
      if int64Sub last.Fitness first.Fitness = 0 then some (population, population)
      else
        match top[PoolSize.toNat]? with
        | some worst =>
          some (population, (top.take (top.length - 1)).flatMap fun t =>
            List.replicate (int64Sub worst.Fitness t.Fitness).toNat t)
        | none => none
    | _, _ => none

/-- The slice `top := population[0 : PoolSize+1]` that `createPool` takes after sorting the
given population, when it does not reach past the length (`PoolSize < len(population)`). -/
def topSlice (PoolSize : Int) (population : List TwoD) : List TwoD :=
  (sortSliceStable less population).take (PoolSize + 1).toNat

/-- A population in ascending order of `Fitness`. -/
def Ascending (population : List TwoD) : Prop :=
  population.Pairwise fun a b => a.Fitness ≤ b.Fitness

/-- No two scores of the population are `2 ^ 63` or more apart: the `int64` subtraction of
a smaller score from a larger one does not overflow. -/
def ScoreGapsFit (population : List TwoD) : Prop :=
  ∀ a ∈ population, ∀ b ∈ population, a.Fitness - b.Fitness < 2 ^ 63

instance (population : List TwoD) : Decidable (ScoreGapsFit population) := by
  unfold ScoreGapsFit
  infer_instance

/-- Scores as the data model has them: non-negative `int64` values. -/
def ScoresValid (population : List TwoD) : Prop :=
  ∀ t ∈ population, 0 ≤ t.Fitness ∧ t.Fitness < 2 ^ 63

instance (population : List TwoD) : Decidable (ScoresValid population) := by
  unfold ScoresValid
  infer_instance

/-! ## Crossover, mutation, scoring -/

/-- The results of a sequence of operations, or a panic if one of them panics. -/
def allOrPanic {α : Type} : List (Option α) → Option (List α)
  | [] => some []
  | none :: _ => none
  | some x :: os => (allOrPanic os).map fun xs => x :: xs

/-- Go `breed(d1, d2)`, with the raw draw behind `mid := rand.Intn(len(d1.DNA.Pix))` as input.
The child buffer has the length, stride and extent of `d1`; position `i` is read from `d1` when
`i > mid` and from `d2` otherwise, and a read past the end of `d2` panics. -/
def breed (d1 d2 : TwoD) (rawMid : Nat) : Option TwoD := do
  let n := d1.DNA.Pix.length
  let mid ← randIntn n rawMid
  let pix ← allOrPanic ((List.range n).map fun i =>
    if i > mid then d1.DNA.Pix[i]? else d2.DNA.Pix[i]?)
  pure { DNA := { Pix := pix, Stride := d1.DNA.Stride, Rect := d1.DNA.Rect }, Fitness := 0 }

/-- The value `breed` stores at position `i` of the child when both parents have a sample
there. -/
def crossoverByte (d1 d2 : TwoD) (mid i : Nat) : Byte :=
  if i > mid then (d1.DNA.Pix[i]?).getD 0 else (d2.DNA.Pix[i]?).getD 0

/-- Go conversion `uint8(n)` of a non-negative `int`. -/
def uint8 (n : Nat) : Byte := Fin.ofNat n

/-- The loop of `mutate` from position `i` on: the sample at position `i` is replaced by
`uint8(rand.Intn(255))` when the draw `rand.Float64()` for that position is below
`MutationRate`. `coin i` is the probability draw and `rawVal i` the raw value draw made for
position `i`. -/
def mutateLoop (MutationRate : ℚ) (coin : Nat → ℚ) (rawVal : Nat → Nat) :
    Nat → List Byte → List Byte
  | _, [] => []
  | i, x :: xs =>
    (if coin i < MutationRate then uint8 (rawVal i % 255) else x)
      :: mutateLoop MutationRate coin rawVal (i + 1) xs

/-- Go `(t *TwoD).mutate()`. -/
def mutate (MutationRate : ℚ) (t : TwoD) (coin : Nat → ℚ) (rawVal : Nat → Nat) : TwoD :=
  { t with DNA := { t.DNA with Pix := mutateLoop MutationRate coin rawVal 0 t.DNA.Pix } }

/-- Go `(t *TwoD).calcFitness(target)`: the assignment of `1` for a zero difference is
followed by the unconditional assignment of the difference. -/
def calcFitness (t : TwoD) (target : RGBA) : Option TwoD := do
  let difference ← diff t.DNA target
  let t1 : TwoD := if difference = 0 then { t with Fitness := 1 } else t
  pure { t1 with Fitness := difference }

/-- Go `createRandomImageFrom(img)`: `bytes j` is the random sample `rand.Read` stores at
position `j`. -/
def createRandomImageFrom (img : RGBA) (bytes : Nat → Byte) : RGBA :=
  { Pix := (List.range img.Pix.length).map bytes, Stride := img.Stride, Rect := img.Rect }

/-- Go `createBestWaifu(target)`. -/
def createBestWaifu (target : RGBA) (bytes : Nat → Byte) : Option TwoD :=
  calcFitness { DNA := createRandomImageFrom target bytes, Fitness := 0 } target

/-- Go `createPopulation(target)` for the global `PopSize`; `make` panics on a negative
length. `bytes i` are the random samples of individual `i`. -/
def createPopulation (PopSize : Int) (target : RGBA) (bytes : Nat → Nat → Byte) :
    Option (List TwoD) :=
  if PopSize < 0 then none
  else allOrPanic ((List.range PopSize.toNat).map fun i => createBestWaifu target (bytes i))

/-! ## Generation loop -/

/-- The loop of `getBest` over the remaining individuals: `i` is the position of the next one,
`best` and `index` are the loop variables. -/
def getBestIndex : List TwoD → Nat → Int → Nat → Nat
  | [], _, _, index => index
  | t :: ts, i, best, index =>
    if t.Fitness > best then getBestIndex ts (i + 1) t.Fitness i
    else getBestIndex ts (i + 1) best index

/-- Go `getBest(population)`: `population[index]` panics on an empty population. -/
def getBest (population : List TwoD) : Option TwoD :=
  population[getBestIndex population 0 0 0]?

/-- The random draws consumed while one child is made in `naturalSelection`. -/
structure ChildDraws where
  r1 : Nat
  r2 : Nat
  mid : Nat
  coin : Nat → ℚ
  rawVal : Nat → Nat

/-- Go `naturalSelection(pool, population, target)`; `draws i` are the draws for child `i`. -/
def naturalSelection (MutationRate : ℚ) (pool population : List TwoD) (target : RGBA)
    (draws : Nat → ChildDraws) : Option (List TwoD) :=
  allOrPanic ((List.range population.length).map fun i => do
    let r1 ← randIntn pool.length (draws i).r1
    let r2 ← randIntn pool.length (draws i).r2
    let a ← pool[r1]?
    let b ← pool[r2]?
    let child ← breed a b (draws i).mid
    let child := mutate MutationRate child (draws i).coin (draws i).rawVal
    calcFitness child target)

/-- The global configuration variables of `main.go`. -/
structure Config where
  PoolSize : Int
  PopSize : Int
  FitnessLimit : Int
  MutationRate : ℚ

/-- The variables of `main` that the generation loop reads and writes. `generation` only
feeds the progress report. -/
structure MainState where
  population : List TwoD
  generation : Int
  found : Bool
deriving DecidableEq

/-- One pass through the body of `for !found { ... }` in `main` (progress output left out).
The population comes from `make([]TwoD, n)` in `createPopulation` or `naturalSelection`, so it
has no spare capacity. -/
def loopBody (cfg : Config) (target : RGBA) (draws : Nat → ChildDraws) (s : MainState) :
    Option MainState := do
  let generation := s.generation + 1
  let bestWaifu ← getBest s.population
  if bestWaifu.Fitness < cfg.FitnessLimit then
    pure { population := s.population, generation := generation, found := true }
  else
    let (population, pool) ← createPool cfg.PoolSize s.population []
    let next ← naturalSelection cfg.MutationRate pool population target draws
    pure { population := next, generation := generation, found := false }

/-- The loop `for !found { ... }`: one entry of the list of draws per generation entered; the
loop is left as soon as `found` is set. -/
def mainLoop (cfg : Config) (target : RGBA) : List (Nat → ChildDraws) → MainState →
    Option MainState
  | [], s => some s
  | dr :: rest, s =>
    if s.found then some s
    else (loopBody cfg target dr s).bind (mainLoop cfg target rest)

/-- Go `main` from `createPopulation` on, for a loaded target. -/
def runMain (cfg : Config) (target : RGBA) (bytes : Nat → Nat → Byte)
    (draws : List (Nat → ChildDraws)) : Option MainState :=
  (createPopulation cfg.PopSize target bytes).bind fun population =>
    mainLoop cfg target draws { population := population, generation := 0, found := false }

/-- Every individual of the population has its distance to the target as its score. -/
def Scored (target : RGBA) (population : List TwoD) : Prop :=
  ∀ t ∈ population, diff t.DNA target = some t.Fitness

/-- What the generation loop maintains: the population is scored, and once `found` is set
the individual `getBest` returns has a score below `FitnessLimit`. -/
def LoopInvariant (cfg : Config) (target : RGBA) (s : MainState) : Prop :=
  Scored target s.population ∧
  (s.found = true → ∃ best, getBest s.population = some best ∧ best.Fitness < cfg.FitnessLimit)

/-! ## Sample data -/

/-- A buffer one pixel row high holding the given samples. -/
def rowImage (pix : List Byte) : RGBA :=
  { Pix := pix, Stride := pix.length, Rect := ⟨⟨0, 0⟩, ⟨(pix.length : Int) / 4, 1⟩⟩ }

/-- Buffer `x` of the monotonicity example. -/
def perturbX : RGBA := rowImage [0, 0]

/-- Buffer `y` of the monotonicity example: it differs from `perturbX` at position 1 only. -/
def perturbY : RGBA := rowImage [0, 2]

/-- Buffer `y2` of the monotonicity example: `perturbY` with position 0 changed as well. -/
def perturbY2 : RGBA := rowImage [1, 2]

/-- An individual with the given score (and an empty buffer). -/
def individual (score : Int) : TwoD := { DNA := rowImage [], Fitness := score }

/-- The population with scores `[10, 12, 15, 18, 20]`. -/
def examplePopulation : List TwoD :=
  [individual 10, individual 12, individual 15, individual 18, individual 20]

/-- Two individuals with the largest and the smallest `int64` score. -/
def wrapPopulation : List TwoD :=
  [⟨rowImage [1], 2 ^ 63 - 1⟩, ⟨rowImage [2], -2 ^ 63⟩]

/-- Two individuals with the scores `-1` and `2 ^ 63 - 1`. -/
def overflowPopulation : List TwoD :=
  [⟨rowImage [1], -1⟩, ⟨rowImage [2], 2 ^ 63 - 1⟩]

/-- A population of four distinct individuals whose three lowest scores are equal:
`[7, 9, 7, 7]`. -/
def tiedPopulation : List TwoD :=
  [⟨rowImage [1], 7⟩, ⟨rowImage [2], 9⟩, ⟨rowImage [3], 7⟩, ⟨rowImage [4], 7⟩]

/-- A configuration for a two-individual run on a one-pixel target. -/
def exampleConfig : Config :=
  { PoolSize := 0, PopSize := 2, FitnessLimit := 1, MutationRate := 1 }

/-- The all-zero one-pixel target. -/
def exampleTarget : RGBA := rowImage [0, 0, 0, 0]

/-- Initial samples: individual `i` has the sample `1` at position `i` and `0` elsewhere. -/
def exampleBytes : Nat → Nat → Byte := fun i j => if j = i then 1 else 0

/-- The state in which the example run stops: both children equal the target. -/
def exampleFinal : MainState :=
  { population := [⟨exampleTarget, 0⟩, ⟨exampleTarget, 0⟩], generation := 2, found := true }

/-- Draws of one generation: parents 0 and 1, crossover at 2, every sample redrawn as 0. -/
def exampleDraws : Nat → ChildDraws := fun _ =>
  { r1 := 0, r2 := 1, mid := 2, coin := fun _ => 0, rawVal := fun _ => 0 }

/-- A population of four distinct individuals with scores `[3, 9, 9, 1]`. -/
def rankedPopulation : List TwoD :=
  [⟨rowImage [1], 3⟩, ⟨rowImage [2], 9⟩, ⟨rowImage [3], 9⟩, ⟨rowImage [4], 1⟩]

end GeneticAlgo

namespace GeneticAlgo

/-! ## Machine-integer lemmas -/

theorem wrapInt64_of_inRange (z : Int) (hlo : -2 ^ 63 ≤ z) (hhi : z < 2 ^ 63) :
    wrapInt64 z = z := by
  unfold wrapInt64
  omega

theorem wrapInt64_zero : wrapInt64 0 = 0 := by decide

/-- The wrapped `uint64` computation of `sqareDifference` yields the true squared difference
of the two byte values. -/
theorem sqareDifference_eq_sq (x y : Byte) :
    (sqareDifference x y : Int) = ((x.val : Int) - (y.val : Int)) ^ 2 := by
  have hx := x.isLt
  have hy := y.isLt
  unfold sqareDifference
  have hd : (((x.val + 2 ^ 64 - y.val) % 2 ^ 64 : Nat) : Int)
      ≡ (x.val : Int) - (y.val : Int) [ZMOD 2 ^ 64] := by
    unfold Int.ModEq
    omega
  have hsq := hd.mul hd
  unfold Int.ModEq at hsq
  have hb : 0 ≤ ((x.val : Int) - y.val) * ((x.val : Int) - y.val) := mul_self_nonneg _
  have hb2 : ((x.val : Int) - y.val) * ((x.val : Int) - y.val) < 2 ^ 64 := by
    nlinarith
  rw [Int.emod_eq_of_lt hb hb2] at hsq
  push_cast
  push_cast at hsq
  rw [hsq]
  ring

end GeneticAlgo

namespace GeneticAlgo

/-! ## Distance lemmas -/

theorem sumSquaredDifferences_cons (x y : Byte) (xs ys : List Byte) :
    sumSquaredDifferences (x :: xs) (y :: ys)
      = ((x.val : Int) - (y.val : Int)) ^ 2 + sumSquaredDifferences xs ys := by
  simp [sumSquaredDifferences]

theorem sumSquaredDifferences_nil_left (ys : List Byte) : sumSquaredDifferences [] ys = 0 := by
  simp [sumSquaredDifferences]

theorem byte_sq_le (x y : Byte) : ((x.val : Int) - (y.val : Int)) ^ 2 ≤ 65025 := by
  have hx := x.isLt
  have hy := y.isLt
  nlinarith

theorem sumSquaredDifferences_nonneg (xs ys : List Byte) :
    0 ≤ sumSquaredDifferences xs ys := by
  induction xs generalizing ys with
  | nil => simp [sumSquaredDifferences]
  | cons x xs ih =>
    cases ys with
    | nil => simp [sumSquaredDifferences]
    | cons y ys =>
      rw [sumSquaredDifferences_cons]
      have := ih ys
      positivity

theorem sumSquaredDifferences_le (xs ys : List Byte) :
    sumSquaredDifferences xs ys ≤ 65025 * (xs.length : Int) := by
  induction xs generalizing ys with
  | nil => simp [sumSquaredDifferences]
  | cons x xs ih =>
    cases ys with
    | nil => simp [sumSquaredDifferences]; positivity
    | cons y ys =>
      rw [sumSquaredDifferences_cons]
      have h1 := ih ys
      have h2 := byte_sq_le x y
      simp only [List.length_cons]
      push_cast
      linarith

theorem diffLoop_nil (ys : List Byte) (d : Int) : diffLoop [] ys d = some d := by
  rw [diffLoop]

theorem diffLoop_cons (x y : Byte) (xs ys : List Byte) (d : Int) :
    diffLoop (x :: xs) (y :: ys) d
      = diffLoop xs ys (int64Add d (wrapInt64 (sqareDifference x y))) := by
  rw [diffLoop]

theorem sqareDifference_self (x : Byte) : sqareDifference x x = 0 := by
  have h := sqareDifference_eq_sq x x
  rw [sub_self] at h
  have h2 : (sqareDifference x x : Int) = 0 := by rw [h]; norm_num
  exact_mod_cast h2

theorem int64Add_zero_zero : int64Add 0 (wrapInt64 ((0 : Nat) : Int)) = 0 := by
  decide

/-- Without overflow of the accumulator the loop of `diff` adds the sum of squared
differences to its starting value. -/
theorem diffLoop_eq_sum (xs ys : List Byte) (d : Int) (hlen : xs.length = ys.length)
    (hd : 0 ≤ d) (hb : d + 65025 * (xs.length : Int) < 2 ^ 63) :
    diffLoop xs ys d = some (d + sumSquaredDifferences xs ys) := by
  induction xs generalizing ys d with
  | nil => rw [diffLoop_nil, sumSquaredDifferences_nil_left, add_zero]
  | cons x xs ih =>
    cases ys with
    | nil => simp at hlen
    | cons y ys =>
      have hsq := sqareDifference_eq_sq x y
      have h0 : 0 ≤ ((x.val : Int) - (y.val : Int)) ^ 2 := sq_nonneg _
      have h1 := byte_sq_le x y
      simp only [List.length_cons] at hlen hb
      push_cast at hb
      have hw : wrapInt64 (sqareDifference x y : Int) = (sqareDifference x y : Int) :=
        wrapInt64_of_inRange _ (by rw [hsq]; linarith) (by rw [hsq]; linarith)
      have ha : int64Add d (sqareDifference x y : Int) = d + (sqareDifference x y : Int) :=
        wrapInt64_of_inRange _ (by rw [hsq]; linarith) (by
          rw [hsq]
          have : (0 : Int) ≤ (xs.length : Int) := Int.natCast_nonneg _
          linarith)
      have hlen2 : xs.length = ys.length := by omega
      have hd2 : 0 ≤ d + (sqareDifference x y : Int) := by rw [hsq]; linarith
      have hb2 : d + (sqareDifference x y : Int) + 65025 * (xs.length : Int) < 2 ^ 63 := by
        rw [hsq]; linarith
      rw [diffLoop_cons, hw, ha, ih ys _ hlen2 hd2 hb2, sumSquaredDifferences_cons, hsq,
        add_assoc]

/-- The loop of `diff` never panics when the second buffer is at least as long as the
first. -/
theorem diffLoop_isSome (xs ys : List Byte) (d : Int) (hlen : xs.length ≤ ys.length) :
    ∃ r, diffLoop xs ys d = some r := by
  induction xs generalizing ys d with
  | nil => exact ⟨d, diffLoop_nil ys d⟩
  | cons x xs ih =>
    cases ys with
    | nil => simp at hlen
    | cons y ys =>
      simp only [List.length_cons, Nat.add_le_add_iff_right] at hlen
      rw [diffLoop_cons]
      exact ih ys _ hlen

theorem sqareDifference_comm (x y : Byte) : sqareDifference x y = sqareDifference y x := by
  have h1 := sqareDifference_eq_sq x y
  have h2 := sqareDifference_eq_sq y x
  have h3 : (sqareDifference x y : Int) = (sqareDifference y x : Int) := by
    rw [h1, h2]; ring
  exact_mod_cast h3

theorem diffLoop_comm (xs ys : List Byte) (d : Int) (hlen : xs.length = ys.length) :
    diffLoop xs ys d = diffLoop ys xs d := by
  induction xs generalizing ys d with
  | nil =>
    cases ys with
    | nil => rfl
    | cons y ys => simp at hlen
  | cons x xs ih =>
    cases ys with
    | nil => simp at hlen
    | cons y ys =>
      simp only [List.length_cons, Nat.add_right_cancel_iff] at hlen
      rw [diffLoop_cons, diffLoop_cons, sqareDifference_comm x y, ih ys _ hlen]

theorem diffLoop_self (xs : List Byte) : diffLoop xs xs 0 = some 0 := by
  induction xs with
  | nil => rw [diffLoop_nil]
  | cons x xs ih =>
    rw [diffLoop_cons, sqareDifference_self, int64Add_zero_zero]
    exact ih

theorem sumSquaredDifferences_eq_zero_iff (xs ys : List Byte) (hlen : xs.length = ys.length) :
    sumSquaredDifferences xs ys = 0 ↔ xs = ys := by
  induction xs generalizing ys with
  | nil =>
    cases ys with
    | nil => simp [sumSquaredDifferences]
    | cons y ys => simp at hlen
  | cons x xs ih =>
    cases ys with
    | nil => simp at hlen
    | cons y ys =>
      simp only [List.length_cons, Nat.add_right_cancel_iff] at hlen
      rw [sumSquaredDifferences_cons]
      have h0 : 0 ≤ ((x.val : Int) - (y.val : Int)) ^ 2 := sq_nonneg _
      have h1 := sumSquaredDifferences_nonneg xs ys
      constructor
      · intro h
        have hs : sumSquaredDifferences xs ys = 0 := by linarith
        have hq : ((x.val : Int) - (y.val : Int)) ^ 2 = 0 := by linarith
        have hxy : (x.val : Int) = (y.val : Int) := by
          have := pow_eq_zero_iff (two_ne_zero) |>.1 hq
          linarith
        have hxy2 : x = y := Fin.ext (by exact_mod_cast hxy)
        rw [hxy2, (ih ys hlen).1 hs]
      · intro h
        injection h with hx ht
        subst hx
        rw [(ih ys hlen).2 ht]
        simp

/-- The value of `diff` on buffers of equal length whose accumulated sum stays in the exact
range of the square-root step. -/
theorem diff_eq_sqrt_sum (a b : RGBA) (hlen : a.Pix.length = b.Pix.length)
    (hsize : a.Pix.length * 65025 < 2 ^ 52) :
    diff a b = some ((Nat.sqrt (sumSquaredDifferences a.Pix b.Pix).toNat : Nat) : Int) := by
  have hb : (0 : Int) + 65025 * (a.Pix.length : Int) < 2 ^ 63 := by
    have : ((a.Pix.length * 65025 : Nat) : Int) < ((2 ^ 52 : Nat) : Int) := by
      exact_mod_cast hsize
    push_cast at this
    linarith
  unfold diff
  rw [diffLoop_eq_sum a.Pix b.Pix 0 hlen le_rfl hb]
  simp [sqrtInt64]

end GeneticAlgo

namespace GeneticAlgo

/-! ## Distance: the claims -/

/-- C2: for buffers `a`, `b` of equal length (whose accumulated sum stays below `2 ^ 52`, so
that neither the `int64` accumulator nor the floating-point square root loses anything),
`diff a b` returns the integer square root of the sum over all positions of the squared true
difference of the byte values: a non-negative `r` with `r * r <= sum < (r + 1) * (r + 1)`. -/
theorem diff_is_integer_euclidean_distance (a b : RGBA)
    (hlen : a.Pix.length = b.Pix.length) (hsize : a.Pix.length * 65025 < 2 ^ 52) :
    ∃ r : Nat, diff a b = some (r : Int) ∧
      (r : Int) * r ≤ sumSquaredDifferences a.Pix b.Pix ∧
      sumSquaredDifferences a.Pix b.Pix < ((r : Int) + 1) * ((r : Int) + 1) := by
  refine ⟨Nat.sqrt (sumSquaredDifferences a.Pix b.Pix).toNat, diff_eq_sqrt_sum a b hlen hsize,
    ?_, ?_⟩
  · have h := Nat.sqrt_le (sumSquaredDifferences a.Pix b.Pix).toNat
    have h0 := Int.toNat_of_nonneg (sumSquaredDifferences_nonneg a.Pix b.Pix)
    rw [← h0]
    exact_mod_cast h
  · have h := Nat.lt_succ_sqrt (sumSquaredDifferences a.Pix b.Pix).toNat
    have h0 := Int.toNat_of_nonneg (sumSquaredDifferences_nonneg a.Pix b.Pix)
    rw [← h0]
    exact_mod_cast h

/-- Witness of C2 on the buffers `[3, 0]` and `[0, 4]` (distance `5`). -/
theorem diff_is_integer_euclidean_distance_witness :
    ∃ r : Nat, diff (rowImage [3, 0]) (rowImage [0, 4]) = some (r : Int) ∧
      (r : Int) * r ≤ sumSquaredDifferences (rowImage [3, 0]).Pix (rowImage [0, 4]).Pix ∧
      sumSquaredDifferences (rowImage [3, 0]).Pix (rowImage [0, 4]).Pix
        < ((r : Int) + 1) * ((r : Int) + 1) :=
  diff_is_integer_euclidean_distance (rowImage [3, 0]) (rowImage [0, 4]) (by decide) (by decide)

end GeneticAlgo

namespace GeneticAlgo

/-- C5: `diff x x` is `0` for every buffer `x`, and for buffers `a`, `b` of equal length
(accumulated sum below `2 ^ 52`) `diff a b` is `0` exactly when the two sample sequences are
byte-for-byte identical. -/
theorem diff_zero_iff_identical :
    (∀ x : RGBA, diff x x = some 0) ∧
    (∀ a b : RGBA, a.Pix.length = b.Pix.length → a.Pix.length * 65025 < 2 ^ 52 →
      (diff a b = some 0 ↔ a.Pix = b.Pix)) := by
  refine ⟨fun x => ?_, fun a b hlen hsize => ?_⟩
  · unfold diff
    rw [diffLoop_self]
    simp [sqrtInt64]
  · rw [diff_eq_sqrt_sum a b hlen hsize]
    have h0 := Int.toNat_of_nonneg (sumSquaredDifferences_nonneg a.Pix b.Pix)
    rw [← sumSquaredDifferences_eq_zero_iff a.Pix b.Pix hlen]
    constructor
    · intro h
      have h1 : Nat.sqrt (sumSquaredDifferences a.Pix b.Pix).toNat = 0 := by
        have := Option.some.inj h
        exact_mod_cast this
      rw [Nat.sqrt_eq_zero] at h1
      omega
    · intro h
      rw [h]
      simp

/-- Witness of C5: the buffers `[7, 9]` and `[7, 9]` are at distance `0`, and being at
distance `0` is the same as being identical for them. -/
theorem diff_zero_iff_identical_witness :
    diff (rowImage [7, 9]) (rowImage [7, 9]) = some 0 ∧
    (diff (rowImage [7, 9]) (rowImage [7, 8]) = some 0
      ↔ (rowImage [7, 9]).Pix = (rowImage [7, 8]).Pix) :=
  ⟨diff_zero_iff_identical.1 (rowImage [7, 9]),
    diff_zero_iff_identical.2 (rowImage [7, 9]) (rowImage [7, 8]) (by decide) (by decide)⟩

/-- C6: for buffers `x`, `y` of equal length `diff x y` and `diff y x` return the same
distance, whatever the wrap of the unsigned subtraction in `sqareDifference`. -/
theorem diff_symmetric (x y : RGBA) (hlen : x.Pix.length = y.Pix.length) :
    ∃ d, diff x y = some d ∧ diff y x = some d := by
  obtain ⟨r, hr⟩ := diffLoop_isSome x.Pix y.Pix 0 (le_of_eq hlen)
  refine ⟨sqrtInt64 r, ?_, ?_⟩
  · unfold diff
    rw [hr]
    rfl
  · unfold diff
    rw [← diffLoop_comm x.Pix y.Pix 0 hlen, hr]
    rfl

/-- Witness of C6 on the buffers `[1, 200]` and `[250, 3]`. -/
theorem diff_symmetric_witness :
    ∃ d, diff (rowImage [1, 200]) (rowImage [250, 3]) = some d
      ∧ diff (rowImage [250, 3]) (rowImage [1, 200]) = some d :=
  diff_symmetric (rowImage [1, 200]) (rowImage [250, 3]) (by decide)

/-! ### Single-byte perturbation -/

theorem sumSquaredDifferences_lt_of_perturb (xs ys zs : List Byte) (i : Nat)
    (hxy : xs.length = ys.length) (hzy : zs.length = ys.length) (hi : i < xs.length)
    (hagree : ∀ j, j ≠ i → zs[j]? = ys[j]?)
    (hsame : ys[i]? = xs[i]?) (hdiff : zs[i]? ≠ xs[i]?) :
    sumSquaredDifferences xs ys < sumSquaredDifferences xs zs := by
  induction xs generalizing ys zs i with
  | nil => simp at hi
  | cons x xs ih =>
    cases ys with
    | nil => simp at hxy
    | cons y ys =>
      cases zs with
      | nil => simp at hzy
      | cons z zs =>
        simp only [List.length_cons, Nat.add_right_cancel_iff] at hxy hzy
        rw [sumSquaredDifferences_cons, sumSquaredDifferences_cons]
        cases i with
        | zero =>
          simp only [List.getElem?_cons_zero, Option.some.injEq] at hsame hdiff
          have htail : zs = ys := by
            apply List.ext_getElem?
            intro j
            have := hagree (j + 1) (by omega)
            simpa using this
          subst hsame
          subst htail
          have hne : (y.val : Int) - (z.val : Int) ≠ 0 := by
            intro h
            apply hdiff
            have hv : (z.val : Int) = (y.val : Int) := by linarith
            have hzy2 : z = y := Fin.ext (by exact_mod_cast hv)
            rw [hzy2]
          have hpos : 0 < ((y.val : Int) - (z.val : Int)) ^ 2 :=
            lt_of_le_of_ne (sq_nonneg _) (Ne.symm (pow_ne_zero 2 hne))
          simp only [sub_self]
          linarith
        | succ k =>
          have hhead : z = y := by
            have := hagree 0 (by omega)
            simpa using this
          subst hhead
          simp only [List.getElem?_cons_succ] at hsame hdiff
          simp only [List.length_cons, Nat.add_lt_add_iff_right] at hi
          have := ih ys zs k hxy hzy hi
            (fun j hj => by
              have := hagree (j + 1) (by omega)
              simpa using this)
            hsame hdiff
          linarith

/-- C7 as stated fails: `perturbY` and `perturbY2` agree except at position 0, where
`perturbY` equals `perturbX` and `perturbY2` does not, yet both are at distance `2` from
`perturbX` (the sums are `4` and `5`). -/
theorem diff_not_strictly_monotone :
    perturbX.Pix.length = perturbY.Pix.length ∧ perturbY2.Pix.length = perturbY.Pix.length ∧
    (∀ j, j ≠ 0 → perturbY2.Pix[j]? = perturbY.Pix[j]?) ∧
    perturbY.Pix[0]? = perturbX.Pix[0]? ∧ perturbY2.Pix[0]? ≠ perturbX.Pix[0]? ∧
    diff perturbX perturbY = some 2 ∧ diff perturbX perturbY2 = some 2 := by
  refine ⟨by decide, by decide, ?_, by decide, by decide, ?_, ?_⟩
  · intro j hj
    cases j with
    | zero => exact absurd rfl hj
    | succ k => rfl
  · rw [diff_eq_sqrt_sum perturbX perturbY (by decide) (by decide)]
    have h : sumSquaredDifferences perturbX.Pix perturbY.Pix = 4 := by decide
    have h4 : Nat.sqrt (4 : Int).toNat = 2 :=
      (Nat.eq_sqrt.2 ⟨by decide, by decide⟩).symm
    rw [h, h4]
    rfl
  · rw [diff_eq_sqrt_sum perturbX perturbY2 (by decide) (by decide)]
    have h : sumSquaredDifferences perturbX.Pix perturbY2.Pix = 5 := by decide
    have h5 : Nat.sqrt (5 : Int).toNat = 2 :=
      (Nat.eq_sqrt.2 ⟨by decide, by decide⟩).symm
    rw [h, h5]
    rfl

/-- C7, amended: let `y2` differ from `y` at one position only, at which `y` agrees with `x`
and `y2` does not (buffers of equal length, with `len * 65025 < 2 ^ 52`). Then the sum of
squared differences that `diff` accumulates is strictly larger for `y2` than for `y`, the
distance does not decrease (`diff x y <= diff x y2`), and it grows strictly exactly when
`(diff x y + 1) ^ 2` does not exceed the sum accumulated for `y2`; in particular it grows
strictly when `y` is identical to `x`, where `diff x y = 0`. -/
theorem diff_monotone_single_byte (x y y2 : RGBA) (i : Nat)
    (hxy : x.Pix.length = y.Pix.length) (hyy : y2.Pix.length = y.Pix.length)
    (hsize : x.Pix.length * 65025 < 2 ^ 52) (hi : i < x.Pix.length)
    (hagree : ∀ j, j ≠ i → y2.Pix[j]? = y.Pix[j]?)
    (hsame : y.Pix[i]? = x.Pix[i]?) (hdiff : y2.Pix[i]? ≠ x.Pix[i]?) :
    ∃ s s2 d d2 : Int,
      diffLoop x.Pix y.Pix 0 = some s ∧ diffLoop x.Pix y2.Pix 0 = some s2 ∧
      s = sumSquaredDifferences x.Pix y.Pix ∧ s2 = sumSquaredDifferences x.Pix y2.Pix ∧
      s < s2 ∧
      diff x y = some d ∧ diff x y2 = some d2 ∧ d ≤ d2 ∧
      (d < d2 ↔ (d + 1) * (d + 1) ≤ s2) ∧
      (y.Pix = x.Pix → d = 0 ∧ 0 < d2) := by
  have hlt := sumSquaredDifferences_lt_of_perturb x.Pix y.Pix y2.Pix i hxy hyy hi hagree
    hsame hdiff
  have hb : (0 : Int) + 65025 * (x.Pix.length : Int) < 2 ^ 63 := by
    have : ((x.Pix.length * 65025 : Nat) : Int) < ((2 ^ 52 : Nat) : Int) := by
      exact_mod_cast hsize
    push_cast at this
    linarith
  have hl1 := diffLoop_eq_sum x.Pix y.Pix 0 hxy le_rfl hb
  have hl2 := diffLoop_eq_sum x.Pix y2.Pix 0 (by omega) le_rfl hb
  rw [zero_add] at hl1 hl2
  have h1 := sumSquaredDifferences_nonneg x.Pix y.Pix
  have h2 := sumSquaredDifferences_nonneg x.Pix y2.Pix
  have ht1 := Int.toNat_of_nonneg h1
  have ht2 := Int.toNat_of_nonneg h2
  have hle : (sumSquaredDifferences x.Pix y.Pix).toNat
      ≤ (sumSquaredDifferences x.Pix y2.Pix).toNat := by omega
  refine ⟨_, _, _, _, hl1, hl2, rfl, rfl, hlt, diff_eq_sqrt_sum x y hxy hsize,
    diff_eq_sqrt_sum x y2 (by omega) hsize, ?_, ?_, ?_⟩
  · exact_mod_cast Nat.sqrt_le_sqrt hle
  · have key : Nat.sqrt (sumSquaredDifferences x.Pix y.Pix).toNat
          < Nat.sqrt (sumSquaredDifferences x.Pix y2.Pix).toNat
        ↔ (Nat.sqrt (sumSquaredDifferences x.Pix y.Pix).toNat + 1)
            * (Nat.sqrt (sumSquaredDifferences x.Pix y.Pix).toNat + 1)
          ≤ (sumSquaredDifferences x.Pix y2.Pix).toNat := by
      rw [← Nat.le_sqrt]
      exact Nat.lt_iff_add_one_le
    constructor
    · intro h
      have h3 := key.1 (by exact_mod_cast h)
      rw [← ht2]
      exact_mod_cast h3
    · intro h
      rw [← ht2] at h
      have h3 := key.2 (by exact_mod_cast h)
      exact_mod_cast h3
  · intro heq
    have hz : sumSquaredDifferences x.Pix y.Pix = 0 :=
      (sumSquaredDifferences_eq_zero_iff x.Pix y.Pix hxy).2 heq.symm
    constructor
    · rw [hz]
      rfl
    · have hpos : 0 < (sumSquaredDifferences x.Pix y2.Pix).toNat := by omega
      exact_mod_cast Nat.sqrt_pos.2 hpos

/-- Witness of the amended C7 on `perturbX`, `perturbY`, `perturbY2`. -/
theorem diff_monotone_single_byte_witness :
    ∃ s s2 d d2 : Int,
      diffLoop perturbX.Pix perturbY.Pix 0 = some s ∧
      diffLoop perturbX.Pix perturbY2.Pix 0 = some s2 ∧
      s = sumSquaredDifferences perturbX.Pix perturbY.Pix ∧
      s2 = sumSquaredDifferences perturbX.Pix perturbY2.Pix ∧
      s < s2 ∧
      diff perturbX perturbY = some d ∧ diff perturbX perturbY2 = some d2 ∧ d ≤ d2 ∧
      (d < d2 ↔ (d + 1) * (d + 1) ≤ s2) ∧
      (perturbY.Pix = perturbX.Pix → d = 0 ∧ 0 < d2) :=
  diff_monotone_single_byte perturbX perturbY perturbY2 0 (by decide) (by decide) (by decide)
    (by decide)
    (fun j hj => by
      cases j with
      | zero => exact absurd rfl hj
      | succ k => rfl)
    (by decide) (by decide)

end GeneticAlgo

namespace GeneticAlgo

/-! ## The stable sort -/

theorem insertStable_perm (lt : TwoD → TwoD → Bool) (x : TwoD) (l : List TwoD) :
    (insertStable lt x l).Perm (x :: l) := by
  induction l with
  | nil => exact List.Perm.refl _
  | cons y ys ih =>
    rw [insertStable]
    split
    · exact (List.Perm.cons y ih).trans (List.Perm.swap x y ys)
    · exact List.Perm.refl _

theorem sortSliceStable_perm (lt : TwoD → TwoD → Bool) (l : List TwoD) :
    (sortSliceStable lt l).Perm l := by
  induction l with
  | nil => exact List.Perm.refl _
  | cons x xs ih =>
    rw [sortSliceStable]
    exact (insertStable_perm lt x _).trans (List.Perm.cons x ih)

theorem sortSliceStable_length (lt : TwoD → TwoD → Bool) (l : List TwoD) :
    (sortSliceStable lt l).length = l.length :=
  (sortSliceStable_perm lt l).length_eq

theorem insertStable_ascending (x : TwoD) (l : List TwoD) (h : Ascending l) :
    Ascending (insertStable less x l) := by
  unfold Ascending at h ⊢
  induction l with
  | nil => simp [insertStable]
  | cons y ys ih =>
    rw [List.pairwise_cons] at h
    rw [insertStable]
    split
    · rename_i hlt
      have hyx : y.Fitness < x.Fitness := by simpa [less] using hlt
      rw [List.pairwise_cons]
      refine ⟨fun t ht => ?_, ih h.2⟩
      have hmem := (insertStable_perm less x ys).mem_iff.1 ht
      rcases List.mem_cons.1 hmem with rfl | hin
      · exact le_of_lt hyx
      · exact h.1 t hin
    · rename_i hlt
      have hxy : x.Fitness ≤ y.Fitness := by
        have : ¬ y.Fitness < x.Fitness := by simpa [less] using hlt
        omega
      rw [List.pairwise_cons, List.pairwise_cons]
      refine ⟨fun t ht => ?_, h⟩
      rcases List.mem_cons.1 ht with rfl | hin
      · exact hxy
      · exact le_trans hxy (h.1 t hin)

theorem sortSliceStable_ascending (l : List TwoD) : Ascending (sortSliceStable less l) := by
  induction l with
  | nil => exact List.Pairwise.nil
  | cons x xs ih =>
    rw [sortSliceStable]
    exact insertStable_ascending x _ ih

theorem insertStable_filter (f : Int) (x : TwoD) (l : List TwoD) :
    (insertStable less x l).filter (fun t => decide (t.Fitness = f))
      = (x :: l).filter (fun t => decide (t.Fitness = f)) := by
  induction l with
  | nil => rfl
  | cons y ys ih =>
    rw [insertStable]
    split
    · rename_i hlt
      have hyx : y.Fitness < x.Fitness := by simpa [less] using hlt
      rw [List.filter_cons, ih]
      by_cases hx : x.Fitness = f
      · have hy : ¬ y.Fitness = f := by omega
        simp [List.filter_cons, hx, hy]
      · simp [List.filter_cons, hx]
    · rfl

/-- Stability: for each score the individuals with that score appear in the same order
before and after the sort. -/
theorem sortSliceStable_filter (f : Int) (l : List TwoD) :
    (sortSliceStable less l).filter (fun t => decide (t.Fitness = f))
      = l.filter (fun t => decide (t.Fitness = f)) := by
  induction l with
  | nil => rfl
  | cons x xs ih =>
    rw [sortSliceStable, insertStable_filter, List.filter_cons, List.filter_cons, ih]

theorem sortSliceStable_pair (a b : TwoD) (l : List TwoD) (hab : a.Fitness = b.Fitness)
    (h : List.Sublist [a, b] l) : List.Sublist [a, b] (sortSliceStable less l) := by
  have h1 := List.Sublist.filter (fun t => decide (t.Fitness = a.Fitness)) h
  rw [← sortSliceStable_filter a.Fitness l] at h1
  have h2 : [a, b].filter (fun t => decide (t.Fitness = a.Fitness)) = [a, b] := by
    simp [List.filter_cons, hab]
  rw [h2] at h1
  exact h1.trans (List.filter_sublist _)

end GeneticAlgo

namespace GeneticAlgo

/-! ## The selection pool: lemmas -/

theorem topSlice_length (population : List TwoD) (k : Nat) (hlt : k < population.length) :
    (topSlice (k : Int) population).length = k + 1 := by
  unfold topSlice
  have h1 : ((k : Int) + 1).toNat = k + 1 := by omega
  rw [h1, List.length_take, sortSliceStable_length]
  omega

theorem createPool_eq (population spare : List TwoD) (PoolSize : Int) (h0 : 0 ≤ PoolSize)
    (hlt : PoolSize < population.length) :
    ∃ first worst, (topSlice PoolSize population)[0]? = some first ∧
      (topSlice PoolSize population)[PoolSize.toNat]? = some worst ∧
      createPool PoolSize population spare = some (sortSliceStable less population,
        if int64Sub worst.Fitness first.Fitness = 0 then sortSliceStable less population
        else ((topSlice PoolSize population).take PoolSize.toNat).flatMap fun t =>
          List.replicate (int64Sub worst.Fitness t.Fitness).toNat t) := by
  obtain ⟨k, rfl⟩ := Int.eq_ofNat_of_zero_le h0
  have hk : k < population.length := by exact_mod_cast hlt
  have hlen := topSlice_length population k hk
  have hk0 : 0 < (topSlice (k : Int) population).length := by omega
  have hkk : k < (topSlice (k : Int) population).length := by omega
  refine ⟨(topSlice (k : Int) population)[0], (topSlice (k : Int) population)[k],
    List.getElem?_eq_getElem hk0, ?_, ?_⟩
  · rw [Int.toNat_ofNat]
    exact List.getElem?_eq_getElem hkk
  · have hcond : ¬ ((k : Int) + 1 < 0 ∨
        (((sortSliceStable less population).length + spare.length : Nat) : Int)
          < (k : Int) + 1) := by
      rw [sortSliceStable_length]
      omega
    have htake : List.take ((k : Int) + 1).toNat (sortSliceStable less population ++ spare)
        = topSlice (k : Int) population := by
      unfold topSlice
      apply List.take_append_of_le_length
      rw [sortSliceStable_length]
      omega
    have hlast : (topSlice (k : Int) population).getLast?
        = some (topSlice (k : Int) population)[k] := by
      rw [List.getLast?_eq_getElem?, hlen]
      exact List.getElem?_eq_getElem hkk
    have hhead : (topSlice (k : Int) population).head?
        = some (topSlice (k : Int) population)[0] := by
      rw [List.head?_eq_getElem?]
      exact List.getElem?_eq_getElem hk0
    unfold createPool
    simp only [hcond, if_false, htake]
    rw [hlast, hhead]
    simp only []
    have hw : (topSlice (k : Int) population)[(k : Int).toNat]?
        = some (topSlice (k : Int) population)[k] := by
      rw [Int.toNat_ofNat]
      exact List.getElem?_eq_getElem hkk
    have hl : (topSlice (k : Int) population).length - 1 = (k : Int).toNat := by
      rw [hlen, Int.toNat_ofNat]
      rfl
    rw [hw, hl]
    split
    · rfl
    · rfl

end GeneticAlgo

namespace GeneticAlgo

theorem topSlice_ascending (PoolSize : Int) (population : List TwoD) :
    Ascending (topSlice PoolSize population) :=
  List.Pairwise.sublist (List.take_sublist _ _) (sortSliceStable_ascending population)

theorem mem_of_mem_topSlice (PoolSize : Int) (population : List TwoD) (t : TwoD)
    (h : t ∈ topSlice PoolSize population) : t ∈ population :=
  (sortSliceStable_perm less population).mem_iff.1 (List.mem_of_mem_take h)

/-- In an ascending list every member of the first `k` entries is at most the entry at
position `k`. -/
theorem le_of_mem_take_ascending (l : List TwoD) (h : Ascending l) (k : Nat) (worst t : TwoD)
    (hworst : l[k]? = some worst) (ht : t ∈ l.take k) : t.Fitness ≤ worst.Fitness := by
  obtain ⟨hk, hwk⟩ := List.getElem?_eq_some_iff.1 hworst
  obtain ⟨i, hi, rfl⟩ := List.mem_take_iff_getElem.1 ht
  have hik : i < k := by omega
  have := (List.pairwise_iff_getElem.1 h) i k (by omega) hk hik
  rw [hwk] at this
  exact this

theorem int64Sub_self (a : Int) : int64Sub a a = 0 := by
  unfold int64Sub
  rw [sub_self]
  exact wrapInt64_zero

theorem flatMap_congr_mem {α β : Type} (l : List α) (f g : α → List β)
    (h : ∀ t ∈ l, f t = g t) : l.flatMap f = l.flatMap g := by
  induction l with
  | nil => rfl
  | cons x xs ih =>
    rw [List.flatMap_cons, List.flatMap_cons, h x (List.mem_cons_self x xs),
      ih fun t ht => h t (List.mem_cons_of_mem x ht)]

theorem length_flatMap_replicate (l : List TwoD) (c : TwoD → Nat) :
    (l.flatMap fun t => List.replicate (c t) t).length = (l.map c).sum := by
  induction l with
  | nil => rfl
  | cons x xs ih =>
    rw [List.flatMap_cons, List.length_append, List.length_replicate, ih, List.map_cons,
      List.sum_cons]

end GeneticAlgo

namespace GeneticAlgo

/-! ## The selection pool: the claims -/

theorem int64Sub_of_gap (a b : Int) (h0 : 0 ≤ a - b) (h1 : a - b < 2 ^ 63) :
    int64Sub a b = a - b := by
  unfold int64Sub
  exact wrapInt64_of_inRange _ (by omega) h1

/-- In an ascending list the entry at position 0 is at most the entry at any position. -/
theorem head_le_of_ascending (l : List TwoD) (h : Ascending l) (k : Nat) (first worst : TwoD)
    (hfirst : l[0]? = some first) (hworst : l[k]? = some worst) :
    first.Fitness ≤ worst.Fitness := by
  cases k with
  | zero =>
    rw [hfirst] at hworst
    obtain rfl := Option.some.inj hworst
    exact le_refl _
  | succ j =>
    obtain ⟨h0, hget⟩ := List.getElem?_eq_some_iff.1 hfirst
    exact le_of_mem_take_ascending l h (j + 1) worst first hworst
      (List.mem_take_iff_getElem.2 ⟨0, by omega, hget⟩)

/-- Non-negative `int64` scores are never `2 ^ 63` or more apart. -/
theorem scoreGapsFit_of_scoresValid (population : List TwoD) (h : ScoresValid population) :
    ScoreGapsFit population := by
  intro a ha b hb
  have h1 := h a ha
  have h2 := h b hb
  omega

/-- C1 as stated fails: in `wrapPopulation` (scores `2 ^ 63 - 1` and `-2 ^ 63`) with
`PoolSize = 1` the slice `top` is the sorted population, `worst.Fitness` differs from
`top[0].Fitness` and the count `worst - top[0].Fitness` is `2 ^ 64 - 1`, yet the pool is
empty: the `int64` subtraction wraps to `-1` and the inner loop does not run. -/
theorem createPool_counts_overflow :
    (0 : Int) ≤ 1 ∧ (1 : Int) < (wrapPopulation.length : Int) ∧
    (topSlice 1 wrapPopulation)[0]? = some ⟨rowImage [2], -2 ^ 63⟩ ∧
    (topSlice 1 wrapPopulation)[1]? = some ⟨rowImage [1], 2 ^ 63 - 1⟩ ∧
    (2 ^ 63 - 1 : Int) ≠ -2 ^ 63 ∧
    (2 ^ 63 - 1 : Int) - (-2 ^ 63) = 2 ^ 64 - 1 ∧
    int64Sub (2 ^ 63 - 1) (-2 ^ 63) = -1 ∧
    createPool 1 wrapPopulation [] = some (sortSliceStable less wrapPopulation, []) := by
  refine ⟨by decide, by decide, by decide, by decide, by decide, by decide, by decide,
    by decide⟩

/-- C1, amended: let `top` be the first `PoolSize + 1` individuals of the stably sorted
population (`0 <= PoolSize < len(population)`, no two scores `2 ^ 63` or more apart, so that
the `int64` subtractions cannot overflow), `first = top[0]` and `worst = top[PoolSize]`. If
`worst.Fitness` differs from `first.Fitness`, `createPool` returns as pool exactly `top[0]`
repeated `worst.Fitness - top[0].Fitness` times, followed by `top[1]` repeated
`worst.Fitness - top[1].Fitness` times, and so on up to `top[PoolSize - 1]`, and nothing
else: its length is the sum of these counts, none of which is negative, and `top[PoolSize]`
itself is not among the duplicated entries. Spare capacity of the slice plays no role. -/
theorem createPool_duplication_counts (population spare : List TwoD) (PoolSize : Int)
    (h0 : 0 ≤ PoolSize) (hlt : PoolSize < population.length)
    (hgap : ScoreGapsFit population)
    (first worst : TwoD)
    (hfirst : (topSlice PoolSize population)[0]? = some first)
    (hworst : (topSlice PoolSize population)[PoolSize.toNat]? = some worst)
    (hne : worst.Fitness ≠ first.Fitness) :
    createPool PoolSize population spare = some (sortSliceStable less population,
      ((topSlice PoolSize population).take PoolSize.toNat).flatMap fun t =>
        List.replicate (worst.Fitness - t.Fitness).toNat t) ∧
    (((topSlice PoolSize population).take PoolSize.toNat).flatMap fun t =>
        List.replicate (worst.Fitness - t.Fitness).toNat t).length
      = (((topSlice PoolSize population).take PoolSize.toNat).map fun t =>
          (worst.Fitness - t.Fitness).toNat).sum ∧
    (∀ t ∈ (topSlice PoolSize population).take PoolSize.toNat,
      0 ≤ worst.Fitness - t.Fitness) ∧
    (topSlice PoolSize population).length = PoolSize.toNat + 1 := by
  obtain ⟨f2, w2, hf2, hw2, hcp⟩ := createPool_eq population spare PoolSize h0 hlt
  rw [hfirst] at hf2
  rw [hworst] at hw2
  obtain rfl := Option.some.inj hf2
  obtain rfl := Option.some.inj hw2
  have hwmem : worst ∈ population :=
    mem_of_mem_topSlice PoolSize population worst (List.mem_iff_getElem?.2 ⟨_, hworst⟩)
  have hfmem : first ∈ population :=
    mem_of_mem_topSlice PoolSize population first (List.mem_iff_getElem?.2 ⟨_, hfirst⟩)
  have hle := head_le_of_ascending _ (topSlice_ascending PoolSize population) _ first worst
    hfirst hworst
  have hcond : ¬ int64Sub worst.Fitness first.Fitness = 0 := by
    rw [int64Sub_of_gap _ _ (by omega) (hgap worst hwmem first hfmem)]
    omega
  rw [if_neg hcond] at hcp
  have htle : ∀ t ∈ (topSlice PoolSize population).take PoolSize.toNat,
      0 ≤ worst.Fitness - t.Fitness := by
    intro t ht
    have := le_of_mem_take_ascending _ (topSlice_ascending PoolSize population) _ worst t
      hworst ht
    omega
  have hfun : ((topSlice PoolSize population).take PoolSize.toNat).flatMap (fun t =>
        List.replicate (int64Sub worst.Fitness t.Fitness).toNat t)
      = ((topSlice PoolSize population).take PoolSize.toNat).flatMap (fun t =>
        List.replicate (worst.Fitness - t.Fitness).toNat t) := by
    apply flatMap_congr_mem
    intro t ht
    have htmem : t ∈ population :=
      mem_of_mem_topSlice PoolSize population t (List.mem_of_mem_take ht)
    rw [int64Sub_of_gap _ _ (htle t ht) (hgap worst hwmem t htmem)]
  rw [hfun] at hcp
  refine ⟨hcp, length_flatMap_replicate _ _, htle, ?_⟩
  obtain ⟨k, rfl⟩ := Int.eq_ofNat_of_zero_le h0
  rw [topSlice_length population k (by exact_mod_cast hlt), Int.toNat_ofNat]

/-- Witness of the amended C1: scores `[10, 12, 15, 18, 20]` and `PoolSize = 3` give 8, 6
and 3 copies, a pool of length 17. -/
theorem createPool_duplication_counts_witness :
    createPool 3 examplePopulation [] = some (examplePopulation,
      List.replicate 8 (individual 10) ++ List.replicate 6 (individual 12)
        ++ List.replicate 3 (individual 15)) ∧
    (List.replicate 8 (individual 10) ++ List.replicate 6 (individual 12)
        ++ List.replicate 3 (individual 15)).length = 17 := by
  have h := createPool_duplication_counts examplePopulation [] 3 (by decide) (by decide)
    (by decide) (individual 10) (individual 18) (by decide) (by decide) (by decide)
  refine ⟨?_, by decide⟩
  rw [h.1]
  decide

/-- C4: when the scores of `top[PoolSize]` and `top[0]` do not differ after the sort
(`0 <= PoolSize < len(population)`), `createPool` returns the whole (sorted) population as the
pool, without duplication: the pool holds every individual as often as the population does
and has the length of the population. Spare capacity of the slice plays no role. -/
theorem createPool_degenerate (population spare : List TwoD) (PoolSize : Int)
    (h0 : 0 ≤ PoolSize) (hlt : PoolSize < population.length)
    (first worst : TwoD)
    (hfirst : (topSlice PoolSize population)[0]? = some first)
    (hworst : (topSlice PoolSize population)[PoolSize.toNat]? = some worst)
    (heq : int64Sub worst.Fitness first.Fitness = 0) :
    ∃ pool, createPool PoolSize population spare
        = some (sortSliceStable less population, pool) ∧
      pool = sortSliceStable less population ∧
      pool.Perm population ∧ pool.length = population.length ∧
      ∀ t, pool.count t = population.count t := by
  obtain ⟨f2, w2, hf2, hw2, hcp⟩ := createPool_eq population spare PoolSize h0 hlt
  rw [hfirst] at hf2
  rw [hworst] at hw2
  obtain rfl := Option.some.inj hf2
  obtain rfl := Option.some.inj hw2
  rw [if_pos heq] at hcp
  exact ⟨_, hcp, rfl, sortSliceStable_perm less population,
    sortSliceStable_length less population,
    fun t => (sortSliceStable_perm less population).count_eq t⟩

/-- Witness of C4: scores `[7, 9, 7, 7]` with `PoolSize = 2`. -/
theorem createPool_degenerate_witness :
    ∃ pool, createPool 2 tiedPopulation []
        = some (sortSliceStable less tiedPopulation, pool) ∧
      pool = sortSliceStable less tiedPopulation ∧
      pool.Perm tiedPopulation ∧ pool.length = tiedPopulation.length ∧
      ∀ t, pool.count t = tiedPopulation.count t :=
  createPool_degenerate tiedPopulation [] 2 (by decide) (by decide) ⟨rowImage [1], 7⟩
    ⟨rowImage [4], 7⟩ (by decide) (by decide) (by decide)

end GeneticAlgo

namespace GeneticAlgo

/-- C8 as stated fails: in `overflowPopulation` (scores `-1` and `2 ^ 63 - 1`) with
`PoolSize = 1 < len(population)` the subtraction `top[1].Fitness - top[0].Fitness` wraps to
`-2 ^ 63`, no copy is appended and `createPool` returns an empty pool, on which
`rand.Intn(len(pool))` panics. -/
theorem createPool_pool_empty :
    (0 : Int) ≤ 1 ∧ (1 : Int) < (overflowPopulation.length : Int) ∧
    int64Sub (2 ^ 63 - 1) (-1) = -2 ^ 63 ∧
    createPool 1 overflowPopulation [] = some (overflowPopulation, []) ∧
    randIntn ([] : List TwoD).length 7 = none := by
  refine ⟨by decide, by decide, by decide, by decide, by decide⟩

/-- C8, amended: for every population in which no two scores are `2 ^ 63` or more apart (so
that the `int64` subtractions cannot overflow; every population with non-negative scores is
such) and every `PoolSize` with `0 <= PoolSize < len(population)`, `createPool` returns a
pool with at least one entry, in the duplication case as in the degenerate case, so that
every draw `rand.Intn(len(pool))` of `naturalSelection` succeeds and yields a position inside
the pool. -/
theorem createPool_pool_nonempty (population spare : List TwoD) (PoolSize : Int)
    (h0 : 0 ≤ PoolSize) (hlt : PoolSize < population.length)
    (hgap : ScoreGapsFit population) :
    ∃ sorted pool, createPool PoolSize population spare = some (sorted, pool) ∧
      1 ≤ pool.length ∧
      ∀ raw, ∃ r, randIntn pool.length raw = some r ∧ r < pool.length := by
  obtain ⟨first, worst, hfirst, hworst, hcp⟩ := createPool_eq population spare PoolSize h0 hlt
  have key : ∀ pool : List TwoD, 1 ≤ pool.length →
      1 ≤ pool.length ∧ ∀ raw, ∃ r, randIntn pool.length raw = some r ∧ r < pool.length := by
    intro pool hp
    refine ⟨hp, fun raw => ⟨raw % pool.length, ?_, Nat.mod_lt _ (by omega)⟩⟩
    unfold randIntn
    rw [if_neg (by omega)]
  by_cases hcond : int64Sub worst.Fitness first.Fitness = 0
  · rw [if_pos hcond] at hcp
    refine ⟨_, _, hcp, key _ ?_⟩
    rw [sortSliceStable_length]
    omega
  · rw [if_neg hcond] at hcp
    refine ⟨_, _, hcp, key _ ?_⟩
    have hwmem : worst ∈ population :=
      mem_of_mem_topSlice PoolSize population worst (List.mem_iff_getElem?.2 ⟨_, hworst⟩)
    have hfmem : first ∈ population :=
      mem_of_mem_topSlice PoolSize population first (List.mem_iff_getElem?.2 ⟨_, hfirst⟩)
    have hle := head_le_of_ascending _ (topSlice_ascending PoolSize population) _ first worst
      hfirst hworst
    have hsub := int64Sub_of_gap _ _ (by omega : 0 ≤ worst.Fitness - first.Fitness)
      (hgap worst hwmem first hfmem)
    have hk : PoolSize.toNat ≠ 0 := by
      intro hz
      rw [hz, hfirst] at hworst
      obtain rfl := Option.some.inj hworst
      exact hcond (int64Sub_self _)
    have hftake : first ∈ (topSlice PoolSize population).take PoolSize.toNat := by
      obtain ⟨h0lt, hget⟩ := List.getElem?_eq_some_iff.1 hfirst
      exact List.mem_take_iff_getElem.2 ⟨0, by omega, hget⟩
    have hpos : (int64Sub worst.Fitness first.Fitness).toNat ≠ 0 := by
      rw [hsub] at hcond ⊢
      omega
    have hin : first ∈ ((topSlice PoolSize population).take PoolSize.toNat).flatMap (fun t =>
        List.replicate (int64Sub worst.Fitness t.Fitness).toNat t) :=
      List.mem_flatMap.2 ⟨first, hftake, List.mem_replicate.2 ⟨hpos, rfl⟩⟩
    exact List.length_pos_of_mem hin

/-- Witness of the amended C8 on the population with scores `[10, 12, 15, 18, 20]`,
`PoolSize = 3`. -/
theorem createPool_pool_nonempty_witness :
    ∃ sorted pool, createPool 3 examplePopulation [] = some (sorted, pool) ∧
      1 ≤ pool.length ∧
      ∀ raw, ∃ r, randIntn pool.length raw = some r ∧ r < pool.length :=
  createPool_pool_nonempty examplePopulation [] 3 (by decide) (by decide) (by decide)

/-- C9: `createPool` (with `0 <= PoolSize < len(population)`) leaves the population stably
sorted: the population after the call is a permutation of the one before, in ascending order
of `Fitness`, and individuals of equal `Fitness` keep their relative order (for each score the
individuals with that score form the same sequence before and after; an individual that
preceded another of equal score still precedes it). Spare capacity of the slice plays no
role. -/
theorem createPool_stable_sorts (population spare : List TwoD) (PoolSize : Int)
    (h0 : 0 ≤ PoolSize) (hlt : PoolSize < population.length) :
    ∃ sorted pool, createPool PoolSize population spare = some (sorted, pool) ∧
      sorted.Perm population ∧
      sorted.Pairwise (fun a b => a.Fitness ≤ b.Fitness) ∧
      (∀ f : Int, sorted.filter (fun t => decide (t.Fitness = f))
        = population.filter (fun t => decide (t.Fitness = f))) ∧
      (∀ a b : TwoD, a.Fitness = b.Fitness → List.Sublist [a, b] population →
        List.Sublist [a, b] sorted) := by
  obtain ⟨first, worst, _, _, hcp⟩ := createPool_eq population spare PoolSize h0 hlt
  exact ⟨_, _, hcp, sortSliceStable_perm less population, sortSliceStable_ascending population,
    fun f => sortSliceStable_filter f population,
    fun a b hab h => sortSliceStable_pair a b population hab h⟩

/-- Witness of C9 on the population with scores `[7, 9, 7, 7]`, `PoolSize = 2`. -/
theorem createPool_stable_sorts_witness :
    ∃ sorted pool, createPool 2 tiedPopulation [] = some (sorted, pool) ∧
      sorted.Perm tiedPopulation ∧
      sorted.Pairwise (fun a b => a.Fitness ≤ b.Fitness) ∧
      (∀ f : Int, sorted.filter (fun t => decide (t.Fitness = f))
        = tiedPopulation.filter (fun t => decide (t.Fitness = f))) ∧
      (∀ a b : TwoD, a.Fitness = b.Fitness → List.Sublist [a, b] tiedPopulation →
        List.Sublist [a, b] sorted) :=
  createPool_stable_sorts tiedPopulation [] 2 (by decide) (by decide)

end GeneticAlgo

namespace GeneticAlgo

/-! ## Crossover -/

theorem allOrPanic_eq_some {α : Type} (l : List (Option α)) (r : List α)
    (h : allOrPanic l = some r) : l = r.map some := by
  induction l generalizing r with
  | nil =>
    rw [allOrPanic] at h
    obtain rfl := Option.some.inj h
    rfl
  | cons o os ih =>
    cases o with
    | none => rw [allOrPanic] at h; cases h
    | some x =>
      rw [allOrPanic] at h
      cases hos : allOrPanic os with
      | none => rw [hos] at h; cases h
      | some ys =>
        rw [hos] at h
        obtain rfl := Option.some.inj h
        rw [List.map_cons, ← ih ys hos]

theorem allOrPanic_map_some {α β : Type} (l : List α) (f : α → Option β) (g : α → β)
    (h : ∀ a ∈ l, f a = some (g a)) : allOrPanic (l.map f) = some (l.map g) := by
  induction l with
  | nil => rfl
  | cons x xs ih =>
    rw [List.map_cons, h x (List.mem_cons_self x xs), allOrPanic,
      ih fun a ha => h a (List.mem_cons_of_mem x ha)]
    rfl

theorem breed_eq (d1 d2 : TwoD) (mid : Nat)
    (hlen : d1.DNA.Pix.length = d2.DNA.Pix.length) (hmid : mid < d1.DNA.Pix.length) :
    breed d1 d2 mid = some
      { DNA := { Pix := (List.range d1.DNA.Pix.length).map (crossoverByte d1 d2 mid),
                 Stride := d1.DNA.Stride, Rect := d1.DNA.Rect },
        Fitness := 0 } := by
  have hpix : allOrPanic ((List.range d1.DNA.Pix.length).map fun i =>
      if i > mid then d1.DNA.Pix[i]? else d2.DNA.Pix[i]?)
      = some ((List.range d1.DNA.Pix.length).map (crossoverByte d1 d2 mid)) := by
    apply allOrPanic_map_some
    intro i hi
    have hi1 : i < d1.DNA.Pix.length := List.mem_range.1 hi
    have hi2 : i < d2.DNA.Pix.length := by omega
    unfold crossoverByte
    split
    · rw [List.getElem?_eq_getElem hi1]; rfl
    · rw [List.getElem?_eq_getElem hi2]; rfl
  have hr : randIntn d1.DNA.Pix.length mid = some mid := by
    unfold randIntn
    rw [if_neg (by omega), Nat.mod_eq_of_lt hmid]
  unfold breed
  simp only [hr, Option.bind_eq_bind, Option.some_bind, hpix]
  rfl

/-- C3: for parents `d1`, `d2` whose buffers have the same length `n` and a crossover index
`mid` in `[0, n)` (so `n` is not zero), `breed` returns a child whose buffer has length `n`,
holds the byte of `d1` at every position `i > mid` and the byte of `d2` at every position
`i <= mid`. -/
theorem breed_single_point_crossover (d1 d2 : TwoD) (mid : Nat)
    (hlen : d1.DNA.Pix.length = d2.DNA.Pix.length) (hmid : mid < d1.DNA.Pix.length) :
    ∃ child, breed d1 d2 mid = some child ∧
      child.DNA.Pix.length = d1.DNA.Pix.length ∧
      ∀ i, i < d1.DNA.Pix.length →
        (mid < i → child.DNA.Pix[i]? = d1.DNA.Pix[i]?) ∧
        (i ≤ mid → child.DNA.Pix[i]? = d2.DNA.Pix[i]?) := by
  refine ⟨_, breed_eq d1 d2 mid hlen hmid, ?_, fun i hi => ⟨fun h => ?_, fun h => ?_⟩⟩
  · simp
  · have hi1 : i < d1.DNA.Pix.length := hi
    simp only [List.getElem?_map, List.getElem?_range hi, Option.map_some']
    unfold crossoverByte
    rw [if_pos h, List.getElem?_eq_getElem hi1]
    rfl
  · have hi2 : i < d2.DNA.Pix.length := by omega
    simp only [List.getElem?_map, List.getElem?_range hi, Option.map_some']
    unfold crossoverByte
    rw [if_neg (by omega), List.getElem?_eq_getElem hi2]
    rfl

/-- Witness of C3: parents `[1, 2, 3, 4]` and `[5, 6, 7, 8]` crossed at `mid = 1`. -/
theorem breed_single_point_crossover_witness :
    ∃ child, breed ⟨rowImage [1, 2, 3, 4], 0⟩ ⟨rowImage [5, 6, 7, 8], 0⟩ 1 = some child ∧
      child.DNA.Pix.length = (rowImage [1, 2, 3, 4]).Pix.length ∧
      ∀ i, i < (rowImage [1, 2, 3, 4]).Pix.length →
        (1 < i → child.DNA.Pix[i]? = (rowImage [1, 2, 3, 4]).Pix[i]?) ∧
        (i ≤ 1 → child.DNA.Pix[i]? = (rowImage [5, 6, 7, 8]).Pix[i]?) :=
  breed_single_point_crossover ⟨rowImage [1, 2, 3, 4], 0⟩ ⟨rowImage [5, 6, 7, 8], 0⟩ 1
    (by decide) (by decide)

end GeneticAlgo

namespace GeneticAlgo

/-! ## The generation loop -/

theorem allOrPanic_mem {α : Type} (l : List (Option α)) (r : List α)
    (h : allOrPanic l = some r) : ∀ x ∈ r, some x ∈ l := by
  induction l generalizing r with
  | nil =>
    rw [allOrPanic] at h
    obtain rfl := Option.some.inj h
    intro x hx
    cases hx
  | cons o os ih =>
    cases o with
    | none => rw [allOrPanic] at h; cases h
    | some y =>
      rw [allOrPanic] at h
      cases hos : allOrPanic os with
      | none => rw [hos] at h; cases h
      | some ys =>
        rw [hos] at h
        obtain rfl := Option.some.inj h
        intro x hx
        rcases List.mem_cons.1 hx with rfl | hin
        · exact List.mem_cons_self _ _
        · exact List.mem_cons_of_mem _ (ih ys hos x hin)

/-- What `calcFitness` stores is the distance of the unchanged buffer to the target. -/
theorem calcFitness_scored (t t2 : TwoD) (target : RGBA) (h : calcFitness t target = some t2) :
    t2.DNA = t.DNA ∧ diff t2.DNA target = some t2.Fitness := by
  unfold calcFitness at h
  cases hd : diff t.DNA target with
  | none => rw [hd] at h; cases h
  | some d =>
    rw [hd] at h
    simp only [Option.bind_eq_bind, Option.some_bind] at h
    obtain rfl := Option.some.inj h
    by_cases hz : d = 0
    · simp [hz, hd.symm ▸ (hz ▸ rfl : some d = some 0)]
    · simp [hz, hd]

end GeneticAlgo

namespace GeneticAlgo

theorem naturalSelection_scored (rate : ℚ) (pool population next : List TwoD)
    (target : RGBA) (draws : Nat → ChildDraws)
    (h : naturalSelection rate pool population target draws = some next) :
    Scored target next := by
  intro t ht
  have hmem := allOrPanic_mem _ _ h t ht
  obtain ⟨i, _, hi⟩ := List.mem_map.1 hmem
  simp only [Option.bind_eq_bind] at hi
  cases h1 : randIntn pool.length (draws i).r1 with
  | none => rw [h1] at hi; cases hi
  | some r1 =>
    cases h2 : randIntn pool.length (draws i).r2 with
    | none => rw [h1, h2] at hi; cases hi
    | some r2 =>
      cases ha : pool[r1]? with
      | none => rw [h1, h2] at hi; simp only [Option.some_bind, ha] at hi; cases hi
      | some a =>
        cases hb : pool[r2]? with
        | none => rw [h1, h2] at hi; simp only [Option.some_bind, ha, hb] at hi; cases hi
        | some b =>
          cases hc : breed a b (draws i).mid with
          | none =>
            rw [h1, h2] at hi
            simp only [Option.some_bind, ha, hb, hc] at hi
            cases hi
          | some child =>
            rw [h1, h2] at hi
            simp only [Option.some_bind, ha, hb, hc] at hi
            exact (calcFitness_scored _ _ _ hi).2

theorem createPopulation_scored (PopSize : Int) (target : RGBA) (bytes : Nat → Nat → Byte)
    (population : List TwoD) (h : createPopulation PopSize target bytes = some population) :
    Scored target population := by
  intro t ht
  unfold createPopulation at h
  split at h
  · cases h
  · have hmem := allOrPanic_mem _ _ h t ht
    obtain ⟨i, _, hi⟩ := List.mem_map.1 hmem
    exact (calcFitness_scored _ _ _ hi).2

theorem getBest_mem (population : List TwoD) (best : TwoD)
    (h : getBest population = some best) : best ∈ population :=
  List.mem_iff_getElem?.2 ⟨_, h⟩

theorem loopBody_stop (cfg : Config) (target : RGBA) (draws : Nat → ChildDraws)
    (s : MainState) (best : TwoD) (hbest : getBest s.population = some best)
    (hlt : best.Fitness < cfg.FitnessLimit) :
    loopBody cfg target draws s
      = some { population := s.population, generation := s.generation + 1, found := true } := by
  unfold loopBody
  simp only [hbest, Option.bind_eq_bind, Option.some_bind, if_pos hlt]
  rfl

theorem loopBody_continue (cfg : Config) (target : RGBA) (draws : Nat → ChildDraws)
    (s : MainState) (best : TwoD) (hbest : getBest s.population = some best)
    (hge : ¬ best.Fitness < cfg.FitnessLimit) :
    loopBody cfg target draws s
      = (createPool cfg.PoolSize s.population []).bind fun sp =>
          (naturalSelection cfg.MutationRate sp.2 sp.1 target draws).map fun next =>
            { population := next, generation := s.generation + 1, found := false } := by
  unfold loopBody
  simp only [hbest, Option.bind_eq_bind, Option.some_bind, if_neg hge]
  cases hcp : createPool cfg.PoolSize s.population [] with
  | none => rfl
  | some sp =>
    obtain ⟨sorted, pool⟩ := sp
    simp only [Option.some_bind]
    cases hns : naturalSelection cfg.MutationRate pool sorted target draws with
    | none => rfl
    | some next => rfl

theorem loopBody_invariant (cfg : Config) (target : RGBA) (draws : Nat → ChildDraws)
    (s s2 : MainState) (hinv : Scored target s.population)
    (h : loopBody cfg target draws s = some s2) : LoopInvariant cfg target s2 := by
  cases hbest : getBest s.population with
  | none =>
    unfold loopBody at h
    simp only [hbest, Option.bind_eq_bind, Option.none_bind] at h
    cases h
  | some best =>
    by_cases hlt : best.Fitness < cfg.FitnessLimit
    · rw [loopBody_stop cfg target draws s best hbest hlt] at h
      obtain rfl := Option.some.inj h
      exact ⟨hinv, fun _ => ⟨best, hbest, hlt⟩⟩
    · rw [loopBody_continue cfg target draws s best hbest hlt] at h
      cases hcp : createPool cfg.PoolSize s.population [] with
      | none => rw [hcp] at h; cases h
      | some sp =>
        rw [hcp] at h
        simp only [Option.some_bind] at h
        cases hns : naturalSelection cfg.MutationRate sp.2 sp.1 target draws with
        | none => rw [hns] at h; cases h
        | some next =>
          rw [hns] at h
          obtain rfl := Option.some.inj h
          exact ⟨naturalSelection_scored _ _ _ _ _ _ hns, fun hf => by cases hf⟩

theorem mainLoop_invariant (cfg : Config) (target : RGBA) (draws : List (Nat → ChildDraws))
    (s s2 : MainState) (hinv : LoopInvariant cfg target s)
    (h : mainLoop cfg target draws s = some s2) : LoopInvariant cfg target s2 := by
  induction draws generalizing s with
  | nil =>
    rw [mainLoop] at h
    obtain rfl := Option.some.inj h
    exact hinv
  | cons dr rest ih =>
    rw [mainLoop] at h
    split at h
    · obtain rfl := Option.some.inj h
      exact hinv
    · cases hb : loopBody cfg target dr s with
      | none => rw [hb] at h; cases h
      | some s1 =>
        rw [hb] at h
        exact ih s1 (loopBody_invariant cfg target dr s s1 hinv.1 hb) h

theorem runMain_invariant (cfg : Config) (target : RGBA) (bytes : Nat → Nat → Byte)
    (draws : List (Nat → ChildDraws)) (s : MainState)
    (h : runMain cfg target bytes draws = some s) : LoopInvariant cfg target s := by
  unfold runMain at h
  cases hp : createPopulation cfg.PopSize target bytes with
  | none => rw [hp] at h; cases h
  | some population =>
    rw [hp] at h
    exact mainLoop_invariant cfg target draws _ s
      ⟨createPopulation_scored _ _ _ _ hp, fun hf => by cases hf⟩ h

end GeneticAlgo

namespace GeneticAlgo

/-- C10: in a generation entered with `getBest(population) = bestWaifu`, the loop body sets
`found` (and leaves the population as it is) when `bestWaifu.Fitness < FitnessLimit`, and
otherwise replaces the population by the result of `naturalSelection` on the pool and leaves
`found` unset, so that the loop goes on; a state with `found` set is not changed any more.
Hence in every state in which a run of `main` has stopped, the individual that `getBest`
returns has `diff(DNA, target)` as its score, and this distance is below `FitnessLimit`. -/
theorem generation_loop_termination_predicate (cfg : Config) (target : RGBA) :
    (∀ (draws : Nat → ChildDraws) (s : MainState) (bestWaifu : TwoD),
      getBest s.population = some bestWaifu →
      (bestWaifu.Fitness < cfg.FitnessLimit →
        loopBody cfg target draws s = some
          { population := s.population, generation := s.generation + 1, found := true }) ∧
      (¬ bestWaifu.Fitness < cfg.FitnessLimit →
        loopBody cfg target draws s
          = (createPool cfg.PoolSize s.population []).bind fun sp =>
              (naturalSelection cfg.MutationRate sp.2 sp.1 target draws).map fun next =>
                { population := next, generation := s.generation + 1, found := false })) ∧
    (∀ (draws : List (Nat → ChildDraws)) (s : MainState), s.found = true →
      mainLoop cfg target draws s = some s) ∧
    (∀ (bytes : Nat → Nat → Byte) (draws : List (Nat → ChildDraws)) (s : MainState),
      runMain cfg target bytes draws = some s → s.found = true →
      ∃ bestWaifu d, getBest s.population = some bestWaifu ∧
        diff bestWaifu.DNA target = some d ∧ bestWaifu.Fitness = d ∧ d < cfg.FitnessLimit) := by
  refine ⟨fun draws s bestWaifu hbest => ⟨loopBody_stop cfg target draws s bestWaifu hbest,
    loopBody_continue cfg target draws s bestWaifu hbest⟩, fun draws s hf => ?_,
    fun bytes draws s hrun hf => ?_⟩
  · cases draws with
    | nil => rw [mainLoop]
    | cons dr rest => rw [mainLoop, if_pos hf]
  · obtain ⟨hscored, hstop⟩ := runMain_invariant cfg target bytes draws s hrun
    obtain ⟨best, hbest, hlt⟩ := hstop hf
    exact ⟨best, best.Fitness, hbest, hscored best (getBest_mem _ _ hbest), rfl, hlt⟩

set_option maxRecDepth 100000

/-- Witness of C10: the example run enters a second generation and stops there, with an
individual at distance `0` from the target. -/
theorem generation_loop_termination_predicate_witness :
    runMain exampleConfig exampleTarget exampleBytes [exampleDraws, exampleDraws]
      = some exampleFinal ∧
    ∃ bestWaifu d, getBest exampleFinal.population = some bestWaifu ∧
      diff bestWaifu.DNA exampleTarget = some d ∧ bestWaifu.Fitness = d ∧
      d < exampleConfig.FitnessLimit :=
  ⟨by decide,
    (generation_loop_termination_predicate exampleConfig exampleTarget).2.2 exampleBytes
      [exampleDraws, exampleDraws] exampleFinal (by decide) (by decide)⟩

end GeneticAlgo

namespace GeneticAlgo

/-! ## Scores of the populations the program builds -/

theorem wrapInt64_inRange (z : Int) : -2 ^ 63 ≤ wrapInt64 z ∧ wrapInt64 z < 2 ^ 63 := by
  unfold wrapInt64
  omega

theorem diffLoop_inRange (xs ys : List Byte) (d r : Int)
    (hd : -2 ^ 63 ≤ d ∧ d < 2 ^ 63) (h : diffLoop xs ys d = some r) :
    -2 ^ 63 ≤ r ∧ r < 2 ^ 63 := by
  induction xs generalizing ys d with
  | nil =>
    rw [diffLoop_nil] at h
    obtain rfl := Option.some.inj h
    exact hd
  | cons x xs ih =>
    cases ys with
    | nil => rw [diffLoop] at h; cases h
    | cons y ys =>
      rw [diffLoop_cons] at h
      exact ih ys _ (wrapInt64_inRange _) h

/-- Every distance `diff` returns is a non-negative `int64` value. -/
theorem diff_inRange (a b : RGBA) (r : Int) (h : diff a b = some r) :
    0 ≤ r ∧ r < 2 ^ 63 := by
  unfold diff at h
  cases hl : diffLoop a.Pix b.Pix 0 with
  | none => rw [hl] at h; cases h
  | some d =>
    rw [hl] at h
    obtain rfl := Option.some.inj h
    have hd := diffLoop_inRange a.Pix b.Pix 0 d (by omega) hl
    have hs := Nat.sqrt_le_self d.toNat
    unfold sqrtInt64
    omega

/-- A scored population, as `createPopulation` and `naturalSelection` build it, has valid
scores. -/
theorem scoresValid_of_scored (target : RGBA) (population : List TwoD)
    (h : Scored target population) : ScoresValid population :=
  fun t ht => diff_inRange t.DNA target t.Fitness (h t ht)

end GeneticAlgo

namespace GeneticAlgo

/-! ## Mutation -/

theorem mutateLoop_length (rate : ℚ) (coin : Nat → ℚ) (rawVal : Nat → Nat) (k : Nat)
    (xs : List Byte) : (mutateLoop rate coin rawVal k xs).length = xs.length := by
  induction xs generalizing k with
  | nil => rw [mutateLoop]
  | cons x xs ih => rw [mutateLoop, List.length_cons, List.length_cons, ih]

/-- The sample at position `i` after the loop of `mutate` that started at position `k`. -/
theorem mutateLoop_getElem? (rate : ℚ) (coin : Nat → ℚ) (rawVal : Nat → Nat) (k i : Nat)
    (xs : List Byte) :
    (mutateLoop rate coin rawVal k xs)[i]?
      = (xs[i]?).map fun x =>
          if coin (k + i) < rate then uint8 (rawVal (k + i) % 255) else x := by
  induction xs generalizing k i with
  | nil => rw [mutateLoop]; rfl
  | cons x xs ih =>
    rw [mutateLoop]
    cases i with
    | zero =>
      rw [List.getElem?_cons_zero, List.getElem?_cons_zero, Nat.add_zero]
      rfl
    | succ j =>
      rw [List.getElem?_cons_succ, List.getElem?_cons_succ, ih]
      have h : k + 1 + j = k + (j + 1) := by omega
      rw [h]

theorem mutate_getElem? (rate : ℚ) (t : TwoD) (coin : Nat → ℚ) (rawVal : Nat → Nat) (i : Nat) :
    (mutate rate t coin rawVal).DNA.Pix[i]?
      = (t.DNA.Pix[i]?).map fun x =>
          if coin i < rate then uint8 (rawVal i % 255) else x := by
  have h := mutateLoop_getElem? rate coin rawVal 0 i t.DNA.Pix
  rw [Nat.zero_add] at h
  exact h

theorem uint8_mod_255_le (n : Nat) : (uint8 (n % 255)).val ≤ 254 := by
  have h : (uint8 (n % 255)).val = n % 255 % 256 := rfl
  rw [h]
  omega

end GeneticAlgo

namespace GeneticAlgo

/-- C11: with every probability draw in `[0, 1)`, `mutate` with `MutationRate = 0` returns
the individual unchanged, byte for byte, whatever the draws; with `MutationRate = 1` every
position `i` of the buffer holds the value `uint8(rand.Intn(255))` drawn for that position.
In both cases the buffer keeps its length. -/
theorem mutate_extreme_rates (t : TwoD) (coin : Nat → ℚ) (rawVal : Nat → Nat)
    (hcoin : ∀ i, 0 ≤ coin i ∧ coin i < 1) :
    (mutate 0 t coin rawVal).DNA.Pix = t.DNA.Pix ∧
    (mutate 1 t coin rawVal).DNA.Pix
      = (List.range t.DNA.Pix.length).map (fun i => uint8 (rawVal i % 255)) ∧
    (∀ i, i < t.DNA.Pix.length →
      (mutate 1 t coin rawVal).DNA.Pix[i]? = some (uint8 (rawVal i % 255))) ∧
    (mutate 0 t coin rawVal).DNA.Pix.length = t.DNA.Pix.length ∧
    (mutate 1 t coin rawVal).DNA.Pix.length = t.DNA.Pix.length := by
  have hone : ∀ i, i < t.DNA.Pix.length →
      (mutate 1 t coin rawVal).DNA.Pix[i]? = some (uint8 (rawVal i % 255)) := by
    intro i hi
    rw [mutate_getElem?, List.getElem?_eq_getElem hi, Option.map_some', if_pos (hcoin i).2]
  have hlen : ∀ rate, (mutate rate t coin rawVal).DNA.Pix.length = t.DNA.Pix.length :=
    fun rate => mutateLoop_length rate coin rawVal 0 t.DNA.Pix
  refine ⟨?_, ?_, hone, hlen 0, hlen 1⟩
  · apply List.ext_getElem?
    intro i
    rw [mutate_getElem?]
    have hno : ¬ coin i < 0 := not_lt.2 (hcoin i).1
    cases h : t.DNA.Pix[i]? with
    | none => rfl
    | some x => rw [Option.map_some', if_neg hno]
  · apply List.ext_getElem?
    intro i
    by_cases hi : i < t.DNA.Pix.length
    · rw [hone i hi, List.getElem?_map, List.getElem?_range hi]
      rfl
    · have h1 : (mutate 1 t coin rawVal).DNA.Pix.length ≤ i := by rw [hlen 1]; omega
      have h2 : ((List.range t.DNA.Pix.length).map
          (fun i => uint8 (rawVal i % 255))).length ≤ i := by
        rw [List.length_map, List.length_range]; omega
      rw [List.getElem?_eq_none h1, List.getElem?_eq_none h2]

/-- Witness of C11: the buffer `[10, 20, 30]` with all probability draws `1/2` and the value
draw `i + 1` for position `i`. -/
theorem mutate_extreme_rates_witness :
    (mutate 0 ⟨rowImage [10, 20, 30], 5⟩ (fun _ => 1 / 2) (fun i => i + 1)).DNA.Pix
      = [10, 20, 30] ∧
    (mutate 1 ⟨rowImage [10, 20, 30], 5⟩ (fun _ => 1 / 2) (fun i => i + 1)).DNA.Pix
      = [1, 2, 3] := by
  have h := mutate_extreme_rates ⟨rowImage [10, 20, 30], 5⟩ (fun _ => 1 / 2) (fun i => i + 1)
    (fun _ => ⟨by norm_num, by norm_num⟩)
  refine ⟨h.1, ?_⟩
  rw [h.2.1]
  decide

/-- C18: the value `uint8(rand.Intn(255))` that `mutate` stores in a replaced position lies
in `[0, 254]`; every position of the result holds either that value or the byte it held
before; hence a byte equal to `255` in the result was `255` at that position before. -/
theorem mutate_byte_range (rate : ℚ) (t : TwoD) (coin : Nat → ℚ) (rawVal : Nat → Nat) :
    (∀ i, (uint8 (rawVal i % 255)).val ≤ 254) ∧
    (∀ (i : Nat) (x : Byte), (mutate rate t coin rawVal).DNA.Pix[i]? = some x →
      (coin i < rate ∧ x = uint8 (rawVal i % 255) ∧ x.val ≤ 254) ∨
      (¬ coin i < rate ∧ t.DNA.Pix[i]? = some x)) ∧
    (∀ i : Nat, (mutate rate t coin rawVal).DNA.Pix[i]? = some 255 →
      t.DNA.Pix[i]? = some 255) := by
  have hcase : ∀ (i : Nat) (x : Byte), (mutate rate t coin rawVal).DNA.Pix[i]? = some x →
      (coin i < rate ∧ x = uint8 (rawVal i % 255) ∧ x.val ≤ 254) ∨
      (¬ coin i < rate ∧ t.DNA.Pix[i]? = some x) := by
    intro i x h
    rw [mutate_getElem?] at h
    cases hx : t.DNA.Pix[i]? with
    | none => rw [hx] at h; cases h
    | some y =>
      rw [hx, Option.map_some'] at h
      have h2 := Option.some.inj h
      by_cases hc : coin i < rate
      · rw [if_pos hc] at h2
        exact Or.inl ⟨hc, h2.symm, h2 ▸ uint8_mod_255_le (rawVal i)⟩
      · rw [if_neg hc] at h2
        exact Or.inr ⟨hc, by rw [h2]⟩
  refine ⟨fun i => uint8_mod_255_le (rawVal i), hcase, fun i h => ?_⟩
  rcases hcase i 255 h with ⟨_, _, hle⟩ | ⟨_, hk⟩
  · exact absurd hle (by decide)
  · exact hk

/-- Witness of C18: in `[255, 7]` position 0 is kept and position 1 is redrawn. -/
theorem mutate_byte_range_witness :
    (mutate 1 ⟨rowImage [255, 7], 0⟩ (fun i => if i = 0 then 1 else 0)
        (fun _ => 254)).DNA.Pix = [255, 254] ∧
    (rowImage [255, 7]).Pix[0]? = some 255 :=
  ⟨by decide,
    (mutate_byte_range 1 ⟨rowImage [255, 7], 0⟩ (fun i => if i = 0 then 1 else 0)
      (fun _ => 254)).2.2 0 (by decide)⟩

/-- C16: for all bytes `x`, `y` the result of `sqareDifference`, computed with `uint64`
subtraction and multiplication modulo `2 ^ 64`, is the true squared difference `(x - y) ^ 2`,
a value in `[0, 65025]`, also when `x < y` and the subtraction wraps. -/
theorem sqareDifference_exact (x y : Byte) :
    (sqareDifference x y : Int) = ((x.val : Int) - (y.val : Int)) ^ 2 ∧
    sqareDifference x y ≤ 65025 ∧
    sqareDifference x y = (x.val - y.val) ^ 2 + (y.val - x.val) ^ 2 := by
  have h := sqareDifference_eq_sq x y
  have hb := byte_sq_le x y
  refine ⟨h, ?_, ?_⟩
  · have : (sqareDifference x y : Int) ≤ 65025 := by rw [h]; exact hb
    exact_mod_cast this
  · have hcast : (sqareDifference x y : Int)
        = (((x.val - y.val) ^ 2 + (y.val - x.val) ^ 2 : Nat) : Int) := by
      rw [h]
      rcases Nat.le_total x.val y.val with hle | hle
      · have h1 : x.val - y.val = 0 := by omega
        rw [h1]
        push_cast [Nat.cast_sub hle]
        ring
      · have h1 : y.val - x.val = 0 := by omega
        rw [h1]
        push_cast [Nat.cast_sub hle]
        ring
    exact_mod_cast hcast

end GeneticAlgo

namespace GeneticAlgo

/-! ## The individual `getBest` returns -/

/-- Loop invariant of `getBest`: after the individuals `pre` have been visited, `index`
points at the first individual of `pre` whose score is `best`, the largest score of `pre`. -/
theorem getBestIndex_spec (ts pre : List TwoD) (best : Int) (index : Nat)
    (hidx : ∃ b, pre[index]? = some b ∧ b.Fitness = best)
    (hmax : ∀ t ∈ pre, t.Fitness ≤ best)
    (hfirst : ∀ (j : Nat) (t : TwoD), j < index → pre[j]? = some t → t.Fitness < best) :
    ∃ b, (pre ++ ts)[getBestIndex ts pre.length best index]? = some b ∧
      (∀ t ∈ pre ++ ts, t.Fitness ≤ b.Fitness) ∧
      (∀ (j : Nat) (t : TwoD), j < getBestIndex ts pre.length best index →
        (pre ++ ts)[j]? = some t → t.Fitness < b.Fitness) := by
  induction ts generalizing pre best index with
  | nil =>
    obtain ⟨b, hb, hbf⟩ := hidx
    rw [getBestIndex, List.append_nil]
    exact ⟨b, hb, fun t ht => hbf ▸ hmax t ht, fun j t hj ht => hbf ▸ hfirst j t hj ht⟩
  | cons x xs ih =>
    obtain ⟨b, hb, hbf⟩ := hidx
    have hlt : index < pre.length := (List.getElem?_eq_some_iff.1 hb).1
    have happ : pre ++ x :: xs = (pre ++ [x]) ++ xs := by simp
    have hlen : (pre ++ [x]).length = pre.length + 1 := by simp
    rw [getBestIndex]
    by_cases hgt : x.Fitness > best
    · rw [if_pos hgt, happ, ← hlen]
      apply ih (pre ++ [x]) x.Fitness pre.length
      · exact ⟨x, by simp, rfl⟩
      · intro t ht
        rcases List.mem_append.1 ht with h | h
        · have := hmax t h
          omega
        · rw [List.mem_singleton.1 h]
      · intro j t hj ht
        rw [List.getElem?_append_left hj] at ht
        have := hmax t (List.mem_iff_getElem?.2 ⟨j, ht⟩)
        omega
    · rw [if_neg hgt, happ, ← hlen]
      apply ih (pre ++ [x]) best index
      · exact ⟨b, by rw [List.getElem?_append_left hlt]; exact hb, hbf⟩
      · intro t ht
        rcases List.mem_append.1 ht with h | h
        · exact hmax t h
        · rw [List.mem_singleton.1 h]
          omega
      · intro j t hj ht
        rw [List.getElem?_append_left (by omega)] at ht
        exact hfirst j t hj ht

/-- On a non-empty population with non-negative scores `getBest` returns the first
individual of maximal score. -/
theorem getBest_spec (population : List TwoD) (hne : population ≠ [])
    (hnonneg : ∀ t ∈ population, 0 ≤ t.Fitness) :
    ∃ (i : Nat) (b : TwoD), getBest population = some b ∧ population[i]? = some b ∧
      (∀ t ∈ population, t.Fitness ≤ b.Fitness) ∧
      (∀ (j : Nat) (t : TwoD), j < i → population[j]? = some t → t.Fitness < b.Fitness) := by
  cases population with
  | nil => exact absurd rfl hne
  | cons x xs =>
    have hx := hnonneg x (List.mem_cons_self x xs)
    have key : ∀ (best : Int), x.Fitness = best →
        ∃ b, ([x] ++ xs)[getBestIndex xs [x].length best 0]? = some b ∧
          (∀ t ∈ [x] ++ xs, t.Fitness ≤ b.Fitness) ∧
          (∀ (j : Nat) (t : TwoD), j < getBestIndex xs [x].length best 0 →
            ([x] ++ xs)[j]? = some t → t.Fitness < b.Fitness) := by
      intro best hbest
      apply getBestIndex_spec xs [x] best 0
      · exact ⟨x, rfl, hbest⟩
      · intro t ht
        rw [List.mem_singleton.1 ht, hbest]
      · intro j t hj
        omega
    unfold getBest
    rw [getBestIndex]
    by_cases hgt : x.Fitness > 0
    · rw [if_pos hgt]
      obtain ⟨b, h1, h2, h3⟩ := key x.Fitness rfl
      exact ⟨_, b, h1, h1, h2, h3⟩
    · rw [if_neg hgt]
      obtain ⟨b, h1, h2, h3⟩ := key 0 (by omega)
      exact ⟨_, b, h1, h1, h2, h3⟩

end GeneticAlgo

namespace GeneticAlgo

/-- C14: on a non-empty population whose scores are all non-negative `getBest` returns
`population[i]` for the lowest position `i` at which the score is the maximum of the
population: no individual has a larger score and every individual before position `i` has a
strictly smaller one. `getBest` only reads the population; the embedding has no effect on it
to report. -/
theorem getBest_selects_first_maximum (population : List TwoD) (hne : population ≠ [])
    (hnonneg : ∀ t ∈ population, 0 ≤ t.Fitness) :
    ∃ (i : Nat) (b : TwoD), getBest population = some b ∧ population[i]? = some b ∧
      (∀ t ∈ population, t.Fitness ≤ b.Fitness) ∧
      (∀ (j : Nat) (t : TwoD), j < i → population[j]? = some t → t.Fitness < b.Fitness) :=
  getBest_spec population hne hnonneg

/-- Witness of C14 on the scores `[3, 9, 9, 1]`: the individual at position 1 is returned. -/
theorem getBest_selects_first_maximum_witness :
    getBest rankedPopulation = some ⟨rowImage [2], 9⟩ ∧
    ∃ (i : Nat) (b : TwoD), getBest rankedPopulation = some b ∧ rankedPopulation[i]? = some b ∧
      (∀ t ∈ rankedPopulation, t.Fitness ≤ b.Fitness) ∧
      (∀ (j : Nat) (t : TwoD), j < i → rankedPopulation[j]? = some t →
        t.Fitness < b.Fitness) :=
  ⟨by decide, getBest_selects_first_maximum rankedPopulation (by decide) (by decide)⟩

/-- C19: on a non-empty population with non-negative scores the loop body sets `found` only
if every individual of the population, not just the returned one, has a score below
`FitnessLimit`, and it leaves `found` unset as long as some individual has a score of at
least `FitnessLimit`; in every state in which a run of `main` has stopped, the population is
non-empty and all its scores are below `FitnessLimit`. -/
theorem convergence_covers_population (cfg : Config) (target : RGBA) :
    (∀ (draws : Nat → ChildDraws) (s s2 : MainState), s.population ≠ [] →
      (∀ t ∈ s.population, 0 ≤ t.Fitness) → loopBody cfg target draws s = some s2 →
      (s2.found = true → s2.population = s.population ∧
        ∀ t ∈ s.population, t.Fitness < cfg.FitnessLimit) ∧
      ((∃ t ∈ s.population, cfg.FitnessLimit ≤ t.Fitness) → s2.found = false)) ∧
    (∀ (bytes : Nat → Nat → Byte) (draws : List (Nat → ChildDraws)) (s : MainState),
      runMain cfg target bytes draws = some s → s.found = true →
      s.population ≠ [] ∧ ∀ t ∈ s.population, t.Fitness < cfg.FitnessLimit) := by
  have hstep : ∀ (draws : Nat → ChildDraws) (s s2 : MainState), s.population ≠ [] →
      (∀ t ∈ s.population, 0 ≤ t.Fitness) → loopBody cfg target draws s = some s2 →
      s2.found = true → s2.population = s.population ∧
        ∀ t ∈ s.population, t.Fitness < cfg.FitnessLimit := by
    intro draws s s2 hne hnonneg hbody hfound
    obtain ⟨i, b, hbest, _, hmax, _⟩ := getBest_spec s.population hne hnonneg
    by_cases hlt : b.Fitness < cfg.FitnessLimit
    · rw [loopBody_stop cfg target draws s b hbest hlt] at hbody
      obtain rfl := Option.some.inj hbody
      exact ⟨rfl, fun t ht => lt_of_le_of_lt (hmax t ht) hlt⟩
    · rw [loopBody_continue cfg target draws s b hbest hlt] at hbody
      cases hcp : createPool cfg.PoolSize s.population [] with
      | none => rw [hcp] at hbody; cases hbody
      | some sp =>
        rw [hcp] at hbody
        simp only [Option.some_bind] at hbody
        cases hns : naturalSelection cfg.MutationRate sp.2 sp.1 target draws with
        | none => rw [hns] at hbody; cases hbody
        | some next =>
          rw [hns] at hbody
          obtain rfl := Option.some.inj hbody
          cases hfound
  refine ⟨fun draws s s2 hne hnonneg hbody => ⟨hstep draws s s2 hne hnonneg hbody, ?_⟩,
    fun bytes draws s hrun hfound => ?_⟩
  · rintro ⟨t, ht, hge⟩
    cases hf : s2.found with
    | false => rfl
    | true =>
      have := (hstep draws s s2 hne hnonneg hbody hf).2 t ht
      omega
  · obtain ⟨hscored, hstop⟩ := runMain_invariant cfg target bytes draws s hrun
    obtain ⟨best, hbest, hlt⟩ := hstop hfound
    have hne : s.population ≠ [] := List.ne_nil_of_mem (getBest_mem _ _ hbest)
    have hnonneg : ∀ t ∈ s.population, 0 ≤ t.Fitness :=
      fun t ht => (scoresValid_of_scored target s.population hscored t ht).1
    obtain ⟨i, b, hb, _, hmax, _⟩ := getBest_spec s.population hne hnonneg
    rw [hbest] at hb
    obtain rfl := Option.some.inj hb
    exact ⟨hne, fun t ht => lt_of_le_of_lt (hmax t ht) hlt⟩

set_option maxRecDepth 100000

/-- Witness of C19: the example run stops in `exampleFinal`, where both scores are below
the limit. -/
theorem convergence_covers_population_witness :
    runMain exampleConfig exampleTarget exampleBytes [exampleDraws, exampleDraws]
      = some exampleFinal ∧
    exampleFinal.population ≠ [] ∧
    ∀ t ∈ exampleFinal.population, t.Fitness < exampleConfig.FitnessLimit :=
  ⟨by decide,
    (convergence_covers_population exampleConfig exampleTarget).2 exampleBytes
      [exampleDraws, exampleDraws] exampleFinal (by decide) (by decide)⟩

/-- C17 as stated fails for a slice with spare capacity: a population of length 2 whose
backing array holds three more individuals (capacity 5) and `PoolSize = 3 >= len(population)`
make `population[0 : PoolSize+1]` a valid slice expression, and `createPool` returns a pool. -/
theorem createPool_reaches_spare_capacity :
    (([individual 3, individual 5] : List TwoD).length : Int) ≤ 3 ∧
    createPool 3 [individual 3, individual 5] [individual 9, individual 9, individual 9]
      = some ([individual 3, individual 5],
          List.replicate 6 (individual 3) ++ List.replicate 4 (individual 5)) := by
  refine ⟨by decide, by decide⟩

/-- C17, amended: with `0 <= PoolSize < len(population)` every slice and index expression of
`createPool` is in range and the call returns a pool; with `PoolSize >= cap(population)` the
slice expression `population[0 : PoolSize+1]` is out of range and the call fails; for a
population without spare capacity, as `make` builds every population of this program, that
is `PoolSize >= len(population)`. -/
theorem createPool_bounds (population spare : List TwoD) (PoolSize : Int) :
    (0 ≤ PoolSize → PoolSize < population.length →
      ∃ sorted pool, createPool PoolSize population spare = some (sorted, pool)) ∧
    (((population.length + spare.length : Nat) : Int) ≤ PoolSize →
      createPool PoolSize population spare = none) ∧
    ((population.length : Int) ≤ PoolSize → createPool PoolSize population [] = none) := by
  have hcap : ∀ sp : List TwoD, ((population.length + sp.length : Nat) : Int) ≤ PoolSize →
      createPool PoolSize population sp = none := by
    intro sp hge
    have hcond : PoolSize + 1 < 0 ∨
        (((sortSliceStable less population).length + sp.length : Nat) : Int)
          < PoolSize + 1 := by
      rw [sortSliceStable_length]
      omega
    unfold createPool
    simp only [hcond, if_true]
  refine ⟨fun h0 hlt => ?_, hcap spare, fun hge => hcap [] (by simpa using hge)⟩
  obtain ⟨first, worst, _, _, hcp⟩ := createPool_eq population spare PoolSize h0 hlt
  exact ⟨_, _, hcp⟩

/-- Witness of the amended C17 on the five-individual example population: `PoolSize = 4`
succeeds; `PoolSize = 5` fails without spare capacity, `PoolSize = 6` fails with one spare
element. -/
theorem createPool_bounds_witness :
    (∃ sorted pool, createPool 4 examplePopulation [individual 30] = some (sorted, pool)) ∧
    createPool 6 examplePopulation [individual 30] = none ∧
    createPool 5 examplePopulation [] = none :=
  ⟨(createPool_bounds examplePopulation [individual 30] 4).1 (by decide) (by decide),
    (createPool_bounds examplePopulation [individual 30] 6).2.1 (by decide),
    (createPool_bounds examplePopulation [individual 30] 5).2.2 (by decide)⟩

end GeneticAlgo

namespace GeneticAlgo

/-! ## Crossover: which parent each position comes from -/

/-- C20: for parents `d1`, `d2` of equal length `n` and a crossover index `mid` in `[0, n)`
the buffer of the child that `breed` returns is the first `mid + 1` bytes of `d2` followed by
the bytes of `d1` from position `mid + 1` on: its byte at position 0 is the one of `d2`,
every position `i <= mid` holds the byte of `d2` and every position `i > mid` the byte of
`d1`; the part taken from `d2` has `mid + 1 >= 1` bytes and the part taken from `d1` has
`n - 1 - mid <= n - 1` bytes; for `mid = n - 1` the buffer is a copy of the buffer of `d2`,
and when the parents differ at position 0 the child is not a copy of `d1`, whatever `mid`
is. -/
theorem breed_asymmetric (d1 d2 : TwoD) (mid : Nat)
    (hlen : d1.DNA.Pix.length = d2.DNA.Pix.length) (hmid : mid < d1.DNA.Pix.length) :
    ∃ child, breed d1 d2 mid = some child ∧
      child.DNA.Pix = d2.DNA.Pix.take (mid + 1) ++ d1.DNA.Pix.drop (mid + 1) ∧
      (d2.DNA.Pix.take (mid + 1)).length = mid + 1 ∧
      (d1.DNA.Pix.drop (mid + 1)).length = d1.DNA.Pix.length - 1 - mid ∧
      d1.DNA.Pix.length - 1 - mid ≤ d1.DNA.Pix.length - 1 ∧
      child.DNA.Pix[0]? = d2.DNA.Pix[0]? ∧
      (∀ i : Nat, i ≤ mid → child.DNA.Pix[i]? = d2.DNA.Pix[i]?) ∧
      (∀ i : Nat, mid < i → child.DNA.Pix[i]? = d1.DNA.Pix[i]?) ∧
      (mid = d1.DNA.Pix.length - 1 → child.DNA.Pix = d2.DNA.Pix) ∧
      (d1.DNA.Pix[0]? ≠ d2.DNA.Pix[0]? → child.DNA.Pix ≠ d1.DNA.Pix) := by
  have hle : ∀ i : Nat, i ≤ mid →
      ((List.range d1.DNA.Pix.length).map (crossoverByte d1 d2 mid))[i]? = d2.DNA.Pix[i]? := by
    intro i hi
    have hi1 : i < d1.DNA.Pix.length := by omega
    have hi2 : i < d2.DNA.Pix.length := by omega
    rw [List.getElem?_map, List.getElem?_range hi1, Option.map_some']
    unfold crossoverByte
    rw [if_neg (by omega), List.getElem?_eq_getElem hi2]
    rfl
  have hgt : ∀ i : Nat, mid < i →
      ((List.range d1.DNA.Pix.length).map (crossoverByte d1 d2 mid))[i]? = d1.DNA.Pix[i]? := by
    intro i hi
    by_cases hi1 : i < d1.DNA.Pix.length
    · rw [List.getElem?_map, List.getElem?_range hi1, Option.map_some']
      unfold crossoverByte
      rw [if_pos hi, List.getElem?_eq_getElem hi1]
      rfl
    · have h1 : ((List.range d1.DNA.Pix.length).map (crossoverByte d1 d2 mid)).length ≤ i := by
        rw [List.length_map, List.length_range]; omega
      rw [List.getElem?_eq_none h1, List.getElem?_eq_none (by omega)]
  have htake : (d2.DNA.Pix.take (mid + 1)).length = mid + 1 := by
    rw [List.length_take]
    omega
  have hpix : (List.range d1.DNA.Pix.length).map (crossoverByte d1 d2 mid)
      = d2.DNA.Pix.take (mid + 1) ++ d1.DNA.Pix.drop (mid + 1) := by
    apply List.ext_getElem?
    intro i
    by_cases hi : i ≤ mid
    · rw [hle i hi, List.getElem?_append_left (by omega),
        List.getElem?_take_of_lt (by omega)]
    · rw [hgt i (by omega), List.getElem?_append_right (by omega), htake,
        List.getElem?_drop]
      congr 1
      omega
  refine ⟨_, breed_eq d1 d2 mid hlen hmid, hpix, htake, ?_, Nat.sub_le _ _,
    hle 0 (Nat.zero_le _), hle, hgt, fun hm => ?_, fun hne heq => ?_⟩
  · rw [List.length_drop]
    omega
  · apply List.ext_getElem?
    intro i
    by_cases hi : i < d1.DNA.Pix.length
    · exact hle i (by omega)
    · have h1 : ((List.range d1.DNA.Pix.length).map (crossoverByte d1 d2 mid)).length ≤ i := by
        rw [List.length_map, List.length_range]; omega
      have h2 : d2.DNA.Pix.length ≤ i := by omega
      show ((List.range d1.DNA.Pix.length).map (crossoverByte d1 d2 mid))[i]? = d2.DNA.Pix[i]?
      rw [List.getElem?_eq_none h1, List.getElem?_eq_none h2]
  · apply hne
    have h0 := hle 0 (Nat.zero_le _)
    have heq2 : (List.range d1.DNA.Pix.length).map (crossoverByte d1 d2 mid) = d1.DNA.Pix := heq
    rw [heq2] at h0
    exact h0

/-- Witness of C20: parents `[1, 2, 3, 4]` and `[5, 6, 7, 8]` crossed at `mid = 1` give the
child `[5, 6, 3, 4]`: two bytes of the second parent, then two bytes of the first. -/
theorem breed_asymmetric_witness :
    breed ⟨rowImage [1, 2, 3, 4], 0⟩ ⟨rowImage [5, 6, 7, 8], 0⟩ 1
      = some ⟨⟨[5, 6, 3, 4], 4, ⟨⟨0, 0⟩, ⟨1, 1⟩⟩⟩, 0⟩ ∧
    ∃ child, breed ⟨rowImage [1, 2, 3, 4], 0⟩ ⟨rowImage [5, 6, 7, 8], 0⟩ 1 = some child ∧
      child.DNA.Pix = (rowImage [5, 6, 7, 8]).Pix.take (1 + 1)
        ++ (rowImage [1, 2, 3, 4]).Pix.drop (1 + 1) ∧
      ((rowImage [5, 6, 7, 8]).Pix.take (1 + 1)).length = 1 + 1 ∧
      ((rowImage [1, 2, 3, 4]).Pix.drop (1 + 1)).length
        = (rowImage [1, 2, 3, 4]).Pix.length - 1 - 1 ∧
      (rowImage [1, 2, 3, 4]).Pix.length - 1 - 1 ≤ (rowImage [1, 2, 3, 4]).Pix.length - 1 ∧
      child.DNA.Pix[0]? = (rowImage [5, 6, 7, 8]).Pix[0]? ∧
      (∀ i : Nat, i ≤ 1 → child.DNA.Pix[i]? = (rowImage [5, 6, 7, 8]).Pix[i]?) ∧
      (∀ i : Nat, 1 < i → child.DNA.Pix[i]? = (rowImage [1, 2, 3, 4]).Pix[i]?) ∧
      (1 = (rowImage [1, 2, 3, 4]).Pix.length - 1 →
        child.DNA.Pix = (rowImage [5, 6, 7, 8]).Pix) ∧
      ((rowImage [1, 2, 3, 4]).Pix[0]? ≠ (rowImage [5, 6, 7, 8]).Pix[0]? →
        child.DNA.Pix ≠ (rowImage [1, 2, 3, 4]).Pix) :=
  ⟨by decide,
    breed_asymmetric ⟨rowImage [1, 2, 3, 4], 0⟩ ⟨rowImage [5, 6, 7, 8], 0⟩ 1 (by decide)
      (by decide)⟩

end GeneticAlgo

namespace GeneticAlgo

/-! ## Buffers of different length -/

theorem diffLoop_eq_none_iff (xs ys : List Byte) (d : Int) :
    diffLoop xs ys d = none ↔ ys.length < xs.length := by
  induction xs generalizing ys d with
  | nil => rw [diffLoop_nil]; simp
  | cons x xs ih =>
    cases ys with
    | nil => rw [diffLoop]; simp
    | cons y ys =>
      rw [diffLoop_cons, ih]
      simp

theorem diffLoop_take (xs ys : List Byte) (d : Int) :
    diffLoop xs ys d = diffLoop xs (ys.take xs.length) d := by
  induction xs generalizing ys d with
  | nil => rw [diffLoop_nil, diffLoop_nil]
  | cons x xs ih =>
    cases ys with
    | nil => rfl
    | cons y ys =>
      rw [List.length_cons, List.take_succ_cons, diffLoop_cons, diffLoop_cons, ih]

theorem allOrPanic_eq_none_iff {α : Type} (l : List (Option α)) :
    allOrPanic l = none ↔ none ∈ l := by
  induction l with
  | nil => rw [allOrPanic]; simp
  | cons o os ih =>
    cases o with
    | none => rw [allOrPanic]; simp
    | some x =>
      rw [allOrPanic, Option.map_eq_none', ih]
      simp

/-- When `breed` panics: on an empty first parent (`rand.Intn(0)`), or when the crossover
index is not a position of the second parent. -/
theorem breed_eq_none_iff (d1 d2 : TwoD) (raw : Nat) :
    breed d1 d2 raw = none ↔
      d1.DNA.Pix.length = 0 ∨ d2.DNA.Pix.length ≤ raw % d1.DNA.Pix.length := by
  by_cases hn : d1.DNA.Pix.length = 0
  · have hr : randIntn d1.DNA.Pix.length raw = none := by
      unfold randIntn
      rw [if_pos hn]
    constructor
    · intro _
      exact Or.inl hn
    · intro _
      unfold breed
      simp only [hr, Option.bind_eq_bind, Option.none_bind]
  · have hr : randIntn d1.DNA.Pix.length raw = some (raw % d1.DNA.Pix.length) := by
      unfold randIntn
      rw [if_neg hn]
    have hmid : raw % d1.DNA.Pix.length < d1.DNA.Pix.length :=
      Nat.mod_lt _ (Nat.pos_of_ne_zero hn)
    have hpix : allOrPanic ((List.range d1.DNA.Pix.length).map fun i =>
          if i > raw % d1.DNA.Pix.length then d1.DNA.Pix[i]? else d2.DNA.Pix[i]?) = none
        ↔ d2.DNA.Pix.length ≤ raw % d1.DNA.Pix.length := by
      rw [allOrPanic_eq_none_iff, List.mem_map]
      constructor
      · rintro ⟨i, hi, hnone⟩
        have hi1 : i < d1.DNA.Pix.length := List.mem_range.1 hi
        by_cases hgt : i > raw % d1.DNA.Pix.length
        · rw [if_pos hgt, List.getElem?_eq_getElem hi1] at hnone
          cases hnone
        · rw [if_neg hgt] at hnone
          have := List.getElem?_eq_none_iff.1 hnone
          omega
      · intro hle
        refine ⟨d2.DNA.Pix.length, List.mem_range.2 (by omega), ?_⟩
        rw [if_neg (by omega)]
        exact List.getElem?_eq_none (le_refl _)
    unfold breed
    simp only [hr, Option.bind_eq_bind, Option.some_bind]
    constructor
    · intro h
      right
      apply hpix.1
      cases hp : allOrPanic ((List.range d1.DNA.Pix.length).map fun i =>
          if i > raw % d1.DNA.Pix.length then d1.DNA.Pix[i]? else d2.DNA.Pix[i]?) with
      | none => rfl
      | some pix => rw [hp] at h; cases h
    · rintro (h | h)
      · exact absurd h hn
      · rw [hpix.2 h]
        rfl

theorem breed_length (d1 d2 child : TwoD) (raw : Nat) (h : breed d1 d2 raw = some child) :
    child.DNA.Pix.length = d1.DNA.Pix.length ∧ child.DNA.Stride = d1.DNA.Stride ∧
      child.DNA.Rect = d1.DNA.Rect := by
  unfold breed at h
  dsimp only at h
  cases hr : randIntn d1.DNA.Pix.length raw with
  | none => rw [hr] at h; cases h
  | some mid =>
    rw [hr] at h
    simp only [Option.bind_eq_bind, Option.some_bind] at h
    cases hp : allOrPanic ((List.range d1.DNA.Pix.length).map fun i =>
        if i > mid then d1.DNA.Pix[i]? else d2.DNA.Pix[i]?) with
    | none => rw [hp] at h; cases h
    | some pix =>
      rw [hp] at h
      obtain rfl := Option.some.inj h
      refine ⟨?_, rfl, rfl⟩
      show pix.length = d1.DNA.Pix.length
      have hall : ∀ (l : List (Option Byte)) (r : List Byte), allOrPanic l = some r →
          r.length = l.length := by
        intro l
        induction l with
        | nil =>
          intro r hr2
          rw [allOrPanic] at hr2
          obtain rfl := Option.some.inj hr2
          rfl
        | cons o os ih =>
          intro r hr2
          cases o with
          | none => rw [allOrPanic] at hr2; cases hr2
          | some x =>
            rw [allOrPanic] at hr2
            cases hos : allOrPanic os with
            | none => rw [hos] at hr2; cases hr2
            | some ys =>
              rw [hos] at hr2
              obtain rfl := Option.some.inj hr2
              rw [List.length_cons, List.length_cons, ih ys hos]
      rw [hall _ _ hp, List.length_map, List.length_range]

end GeneticAlgo

namespace GeneticAlgo

/-- The samples of a child that `breed` returns, whatever the lengths of the parents. -/
theorem breed_content (d1 d2 child : TwoD) (raw : Nat) (h : breed d1 d2 raw = some child) :
    ∀ i : Nat, i < d1.DNA.Pix.length →
      (raw % d1.DNA.Pix.length < i → child.DNA.Pix[i]? = d1.DNA.Pix[i]?) ∧
      (i ≤ raw % d1.DNA.Pix.length → child.DNA.Pix[i]? = d2.DNA.Pix[i]?) := by
  unfold breed at h
  dsimp only at h
  cases hr : randIntn d1.DNA.Pix.length raw with
  | none => rw [hr] at h; cases h
  | some mid =>
    have hmid : mid = raw % d1.DNA.Pix.length := by
      unfold randIntn at hr
      split at hr
      · cases hr
      · exact (Option.some.inj hr).symm
    rw [hr] at h
    simp only [Option.bind_eq_bind, Option.some_bind] at h
    cases hp : allOrPanic ((List.range d1.DNA.Pix.length).map fun i =>
        if i > mid then d1.DNA.Pix[i]? else d2.DNA.Pix[i]?) with
    | none => rw [hp] at h; cases h
    | some pix =>
      rw [hp] at h
      obtain rfl := Option.some.inj h
      have heq := allOrPanic_eq_some _ _ hp
      intro i hi
      have hget : (pix[i]?).map some
          = some (if i > mid then d1.DNA.Pix[i]? else d2.DNA.Pix[i]?) := by
        rw [← List.getElem?_map, ← heq, List.getElem?_map, List.getElem?_range hi]
        rfl
      show (raw % d1.DNA.Pix.length < i → pix[i]? = d1.DNA.Pix[i]?) ∧
        (i ≤ raw % d1.DNA.Pix.length → pix[i]? = d2.DNA.Pix[i]?)
      rw [← hmid]
      cases hpi : pix[i]? with
      | none => rw [hpi] at hget; cases hget
      | some v =>
        rw [hpi, Option.map_some'] at hget
        have hv := Option.some.inj hget
        constructor
        · intro hlt
          rw [if_pos hlt] at hv
          exact hv
        · intro hle
          rw [if_neg (by omega)] at hv
          exact hv

/-- Only the first `len(d1.DNA.Pix)` samples of the second parent can matter to `breed`. -/
theorem breed_take (d1 d2 : TwoD) (raw : Nat) :
    breed d1 d2 raw = breed d1
      { d2 with DNA := { d2.DNA with Pix := d2.DNA.Pix.take d1.DNA.Pix.length } } raw := by
  have key : ∀ mid : Nat,
      ((List.range d1.DNA.Pix.length).map fun i =>
        if i > mid then d1.DNA.Pix[i]? else d2.DNA.Pix[i]?)
      = (List.range d1.DNA.Pix.length).map fun i =>
        if i > mid then d1.DNA.Pix[i]? else (d2.DNA.Pix.take d1.DNA.Pix.length)[i]? := by
    intro mid
    apply List.map_congr_left
    intro i hi
    rw [List.getElem?_take_of_lt (List.mem_range.1 hi)]
  unfold breed
  dsimp only
  simp only [key]

/-- C13 as stated fails: the buffers `[1]` and `[0, 9]` differ in length, yet `diff` returns
the distance `1` of `[1]` to the first sample of `[0, 9]`; the parents `[1, 2]` and `[5, 6, 7]`
differ in length, yet `breed` returns the child `[5, 2]`, and so it does for the parents
`[1, 2, 3]` and `[5]` with the crossover index 0. -/
theorem shape_mismatch_not_fatal :
    (rowImage [1]).Pix.length ≠ (rowImage [0, 9]).Pix.length ∧
    diff (rowImage [1]) (rowImage [0, 9]) = some 1 ∧
    (rowImage [1, 2]).Pix.length ≠ (rowImage [5, 6, 7]).Pix.length ∧
    (breed ⟨rowImage [1, 2], 0⟩ ⟨rowImage [5, 6, 7], 0⟩ 0).map (fun c => c.DNA.Pix)
      = some [5, 2] ∧
    (rowImage [1, 2, 3]).Pix.length ≠ (rowImage [5]).Pix.length ∧
    (breed ⟨rowImage [1, 2, 3], 0⟩ ⟨rowImage [5], 0⟩ 0).map (fun c => c.DNA.Pix)
      = some [5, 2, 3] := by
  refine ⟨by decide, by decide, by decide, by decide, by decide, by decide⟩

/-- C13, amended: `diff a b` fails exactly when `b` has fewer samples than `a`, and otherwise
returns the distance of `a` to the first `len(a.Pix)` samples of `b`; `breed` fails exactly
when the first parent is empty or the crossover index `mid` is not a position of the second
parent, and otherwise, also when the parents differ in length, returns a child with the
length, stride and extent of the first parent that holds the byte of the first parent at
every position `i > mid` and the byte of the second parent at every position `i <= mid`, so
that only the first `len(d1.Pix)` samples of a longer second parent can be read. -/
theorem shape_mismatch_behaviour :
    (∀ a b : RGBA, diff a b = none ↔ b.Pix.length < a.Pix.length) ∧
    (∀ a b : RGBA, diff a b = diff a { b with Pix := b.Pix.take a.Pix.length }) ∧
    (∀ (d1 d2 : TwoD) (raw : Nat), breed d1 d2 raw = none ↔
      d1.DNA.Pix.length = 0 ∨ d2.DNA.Pix.length ≤ raw % d1.DNA.Pix.length) ∧
    (∀ (d1 d2 : TwoD) (raw : Nat), breed d1 d2 raw = breed d1
      { d2 with DNA := { d2.DNA with Pix := d2.DNA.Pix.take d1.DNA.Pix.length } } raw) ∧
    (∀ (d1 d2 child : TwoD) (raw : Nat), breed d1 d2 raw = some child →
      (child.DNA.Pix.length = d1.DNA.Pix.length ∧ child.DNA.Stride = d1.DNA.Stride ∧
        child.DNA.Rect = d1.DNA.Rect) ∧
      ∀ i : Nat, i < d1.DNA.Pix.length →
        (raw % d1.DNA.Pix.length < i → child.DNA.Pix[i]? = d1.DNA.Pix[i]?) ∧
        (i ≤ raw % d1.DNA.Pix.length → child.DNA.Pix[i]? = d2.DNA.Pix[i]?)) := by
  refine ⟨fun a b => ?_, fun a b => ?_, breed_eq_none_iff, breed_take,
    fun d1 d2 child raw h => ⟨breed_length d1 d2 child raw h, breed_content d1 d2 child raw h⟩⟩
  · unfold diff
    rw [Option.map_eq_none', diffLoop_eq_none_iff]
  · unfold diff
    rw [diffLoop_take]

/-- Witness of the amended C13: `breed` on the parents `[1, 2]` and `[5, 6, 7]` with
crossover index 0 returns the child `[5, 2]`, of the length of the first parent, with the
byte of the second parent at position 0 and the byte of the first at position 1. -/
theorem shape_mismatch_behaviour_witness :
    breed ⟨rowImage [1, 2], 0⟩ ⟨rowImage [5, 6, 7], 0⟩ 0
      = some ⟨⟨[5, 2], 2, ⟨⟨0, 0⟩, ⟨0, 1⟩⟩⟩, 0⟩ ∧
    ((⟨⟨[5, 2], 2, ⟨⟨0, 0⟩, ⟨0, 1⟩⟩⟩, 0⟩ : TwoD).DNA.Pix.length
        = (rowImage [1, 2]).Pix.length ∧
      (⟨⟨[5, 2], 2, ⟨⟨0, 0⟩, ⟨0, 1⟩⟩⟩, 0⟩ : TwoD).DNA.Stride = (rowImage [1, 2]).Stride ∧
      (⟨⟨[5, 2], 2, ⟨⟨0, 0⟩, ⟨0, 1⟩⟩⟩, 0⟩ : TwoD).DNA.Rect = (rowImage [1, 2]).Rect) ∧
    ∀ i : Nat, i < (rowImage [1, 2]).Pix.length →
      (0 % (rowImage [1, 2]).Pix.length < i →
        (⟨⟨[5, 2], 2, ⟨⟨0, 0⟩, ⟨0, 1⟩⟩⟩, 0⟩ : TwoD).DNA.Pix[i]? = (rowImage [1, 2]).Pix[i]?) ∧
      (i ≤ 0 % (rowImage [1, 2]).Pix.length →
        (⟨⟨[5, 2], 2, ⟨⟨0, 0⟩, ⟨0, 1⟩⟩⟩, 0⟩ : TwoD).DNA.Pix[i]?
          = (rowImage [5, 6, 7]).Pix[i]?) :=
  ⟨by decide,
    shape_mismatch_behaviour.2.2.2.2 ⟨rowImage [1, 2], 0⟩ ⟨rowImage [5, 6, 7], 0⟩
      ⟨⟨[5, 2], 2, ⟨⟨0, 0⟩, ⟨0, 1⟩⟩⟩, 0⟩ 0 (by decide)⟩

end GeneticAlgo

namespace GeneticAlgo

/-! ## Scoring of new individuals -/

theorem calcFitness_eq (t : TwoD) (target : RGBA) :
    calcFitness t target
      = (diff t.DNA target).map fun d => { DNA := t.DNA, Fitness := d } := by
  unfold calcFitness
  cases hd : diff t.DNA target with
  | none => rfl
  | some d =>
    simp only [Option.bind_eq_bind, Option.some_bind, Option.map_some']
    by_cases hz : d = 0
    · rw [if_pos hz]; rfl
    · rw [if_neg hz]; rfl

theorem diff_of_pix_eq (a b : RGBA) (h : a.Pix = b.Pix) : diff a b = some 0 := by
  unfold diff
  rw [h, diffLoop_self]
  rfl

/-- Where a member of the population built by `naturalSelection` comes from: it is the
scored, mutated child of two members of the pool. -/
theorem naturalSelection_member (rate : ℚ) (pool population next : List TwoD)
    (target : RGBA) (draws : Nat → ChildDraws)
    (h : naturalSelection rate pool population target draws = some next)
    (t : TwoD) (ht : t ∈ next) :
    ∃ (i : Nat) (a b child : TwoD), a ∈ pool ∧ b ∈ pool ∧
      breed a b (draws i).mid = some child ∧
      calcFitness (mutate rate child (draws i).coin (draws i).rawVal) target = some t := by
  have hmem := allOrPanic_mem _ _ h t ht
  obtain ⟨i, _, hi⟩ := List.mem_map.1 hmem
  simp only [Option.bind_eq_bind] at hi
  cases h1 : randIntn pool.length (draws i).r1 with
  | none => rw [h1] at hi; cases hi
  | some r1 =>
    cases h2 : randIntn pool.length (draws i).r2 with
    | none => rw [h1, h2] at hi; cases hi
    | some r2 =>
      cases ha : pool[r1]? with
      | none => rw [h1, h2] at hi; simp only [Option.some_bind, ha] at hi; cases hi
      | some a =>
        cases hb : pool[r2]? with
        | none => rw [h1, h2] at hi; simp only [Option.some_bind, ha, hb] at hi; cases hi
        | some b =>
          cases hc : breed a b (draws i).mid with
          | none =>
            rw [h1, h2] at hi
            simp only [Option.some_bind, ha, hb, hc] at hi
            cases hi
          | some child =>
            rw [h1, h2] at hi
            simp only [Option.some_bind, ha, hb, hc] at hi
            exact ⟨i, a, b, child, List.mem_iff_getElem?.2 ⟨_, ha⟩,
              List.mem_iff_getElem?.2 ⟨_, hb⟩, hc, hi⟩

/-- C15: every individual of a population returned by `createPopulation` or by
`naturalSelection` has `diff(DNA, target)` as its score, for `naturalSelection` computed on
the buffer as `mutate` left it; `calcFitness` stores exactly `diff(DNA, target)` and leaves the
buffer as it is, so an individual whose samples equal those of the target gets the score `0`
(the assignment of `1` has no effect). -/
theorem scores_never_stale (target : RGBA) :
    (∀ (PopSize : Int) (bytes : Nat → Nat → Byte) (population : List TwoD),
      createPopulation PopSize target bytes = some population →
      ∀ t ∈ population, diff t.DNA target = some t.Fitness) ∧
    (∀ (rate : ℚ) (pool population next : List TwoD) (draws : Nat → ChildDraws),
      naturalSelection rate pool population target draws = some next →
      ∀ t ∈ next, diff t.DNA target = some t.Fitness ∧
        ∃ (i : Nat) (a b child : TwoD), a ∈ pool ∧ b ∈ pool ∧
          breed a b (draws i).mid = some child ∧
          t.DNA = (mutate rate child (draws i).coin (draws i).rawVal).DNA) ∧
    (∀ t : TwoD, calcFitness t target
      = (diff t.DNA target).map fun d => { DNA := t.DNA, Fitness := d }) ∧
    (∀ t : TwoD, t.DNA.Pix = target.Pix →
      calcFitness t target = some { DNA := t.DNA, Fitness := 0 }) := by
  refine ⟨fun PopSize bytes population h => createPopulation_scored PopSize target bytes
      population h, fun rate pool population next draws h t ht => ?_,
    fun t => calcFitness_eq t target, fun t ht => ?_⟩
  · obtain ⟨i, a, b, child, ha, hb, hc, hcalc⟩ :=
      naturalSelection_member rate pool population next target draws h t ht
    have hs := calcFitness_scored _ _ _ hcalc
    exact ⟨hs.2, i, a, b, child, ha, hb, hc, hs.1⟩
  · rw [calcFitness_eq, diff_of_pix_eq t.DNA target ht]
    rfl

set_option maxRecDepth 100000

/-- Witness of C15: the two individuals of the example start population carry their
distance `1` to the example target, and an individual holding the target samples is scored
`0`. -/
theorem scores_never_stale_witness :
    (∀ t ∈ [(⟨⟨[1, 0, 0, 0], 4, ⟨⟨0, 0⟩, ⟨1, 1⟩⟩⟩, 1⟩ : TwoD),
        ⟨⟨[0, 1, 0, 0], 4, ⟨⟨0, 0⟩, ⟨1, 1⟩⟩⟩, 1⟩],
      diff t.DNA exampleTarget = some t.Fitness) ∧
    calcFitness ⟨exampleTarget, 7⟩ exampleTarget = some { DNA := exampleTarget, Fitness := 0 } :=
  ⟨(scores_never_stale exampleTarget).1 2 exampleBytes _ (by decide),
    (scores_never_stale exampleTarget).2.2.2 ⟨exampleTarget, 7⟩ (by decide)⟩

end GeneticAlgo

namespace GeneticAlgo

/-! ## Size of the populations -/

theorem allOrPanic_map_exists {α β : Type} (l : List α) (f : α → Option β)
    (h : ∀ a ∈ l, ∃ b, f a = some b) :
    ∃ r, allOrPanic (l.map f) = some r ∧ r.length = l.length ∧
      ∀ (i : Nat) (b : β), r[i]? = some b → ∃ a, l[i]? = some a ∧ f a = some b := by
  induction l with
  | nil => exact ⟨[], rfl, rfl, fun i b hb => by cases hb⟩
  | cons x xs ih =>
    obtain ⟨b0, hb0⟩ := h x (List.mem_cons_self x xs)
    obtain ⟨r, hr, hlen, hget⟩ := ih fun a ha => h a (List.mem_cons_of_mem x ha)
    refine ⟨b0 :: r, ?_, ?_, ?_⟩
    · rw [List.map_cons, hb0, allOrPanic, hr]
      rfl
    · rw [List.length_cons, List.length_cons, hlen]
    · intro i b hb
      cases i with
      | zero =>
        rw [List.getElem?_cons_zero] at hb
        obtain rfl := Option.some.inj hb
        exact ⟨x, List.getElem?_cons_zero, hb0⟩
      | succ j =>
        rw [List.getElem?_cons_succ] at hb
        obtain ⟨a, ha, hfa⟩ := hget j b hb
        exact ⟨a, by rw [List.getElem?_cons_succ]; exact ha, hfa⟩

theorem calcFitness_isSome (t : TwoD) (target : RGBA)
    (hlen : t.DNA.Pix.length ≤ target.Pix.length) :
    ∃ d, calcFitness t target = some { DNA := t.DNA, Fitness := d } := by
  obtain ⟨r, hr⟩ := diffLoop_isSome t.DNA.Pix target.Pix 0 hlen
  refine ⟨sqrtInt64 r, ?_⟩
  rw [calcFitness_eq]
  unfold diff
  rw [hr]
  rfl

theorem createPopulation_length (PopSize : Int) (target : RGBA) (bytes : Nat → Nat → Byte)
    (h0 : 0 ≤ PopSize) :
    ∃ population, createPopulation PopSize target bytes = some population ∧
      (population.length : Int) = PopSize := by
  obtain ⟨r, hr, hlen, _⟩ := allOrPanic_map_exists (List.range PopSize.toNat)
    (fun i => createBestWaifu target (bytes i)) (fun i _ => by
      obtain ⟨d, hd⟩ := calcFitness_isSome
        { DNA := createRandomImageFrom target (bytes i), Fitness := 0 } target (by
          show ((List.range target.Pix.length).map (bytes i)).length ≤ target.Pix.length
          rw [List.length_map, List.length_range])
      exact ⟨_, hd⟩)
  refine ⟨r, ?_, ?_⟩
  · unfold createPopulation
    rw [if_neg (by omega)]
    exact hr
  · rw [hlen, List.length_range]
    omega

theorem mutate_shape (rate : ℚ) (t : TwoD) (coin : Nat → ℚ) (rawVal : Nat → Nat) :
    (mutate rate t coin rawVal).DNA.Pix.length = t.DNA.Pix.length ∧
    (mutate rate t coin rawVal).DNA.Stride = t.DNA.Stride ∧
    (mutate rate t coin rawVal).DNA.Rect = t.DNA.Rect :=
  ⟨mutateLoop_length rate coin rawVal 0 t.DNA.Pix, rfl, rfl⟩

/-- One child of `naturalSelection`, made from a non-empty pool of buffers that have the
non-zero length of the target. -/
theorem naturalSelection_child (rate : ℚ) (pool : List TwoD) (target : RGBA) (d : ChildDraws)
    (hpool : pool ≠ []) (hshape : ∀ t ∈ pool, t.DNA.Pix.length = target.Pix.length)
    (hn : target.Pix.length ≠ 0) :
    ∃ (c a : TwoD), (do
        let r1 ← randIntn pool.length d.r1
        let r2 ← randIntn pool.length d.r2
        let a ← pool[r1]?
        let b ← pool[r2]?
        let child ← breed a b d.mid
        let child := mutate rate child d.coin d.rawVal
        calcFitness child target) = some c ∧
      pool[d.r1 % pool.length]? = some a ∧ c.DNA.Pix.length = a.DNA.Pix.length ∧
      c.DNA.Stride = a.DNA.Stride ∧ c.DNA.Rect = a.DNA.Rect := by
  have hpos : 0 < pool.length := List.length_pos.2 hpool
  have hr : ∀ raw, randIntn pool.length raw = some (raw % pool.length) := by
    intro raw
    unfold randIntn
    rw [if_neg (by omega)]
  have h1 : d.r1 % pool.length < pool.length := Nat.mod_lt _ hpos
  have h2 : d.r2 % pool.length < pool.length := Nat.mod_lt _ hpos
  have ha := List.getElem?_eq_getElem h1
  have hb := List.getElem?_eq_getElem h2
  have hla := hshape _ (List.getElem_mem h1)
  have hlb := hshape _ (List.getElem_mem h2)
  have hbreed : ∃ child, breed pool[d.r1 % pool.length] pool[d.r2 % pool.length] d.mid
      = some child := by
    cases hc : breed pool[d.r1 % pool.length] pool[d.r2 % pool.length] d.mid with
    | some child => exact ⟨child, rfl⟩
    | none =>
      rcases (breed_eq_none_iff _ _ _).1 hc with h | h
      · omega
      · have := Nat.mod_lt d.mid (Nat.pos_of_ne_zero (by omega :
          (pool[d.r1 % pool.length]).DNA.Pix.length ≠ 0))
        omega
  obtain ⟨child, hchild⟩ := hbreed
  obtain ⟨hcl, hcs, hcr⟩ := breed_length _ _ _ _ hchild
  obtain ⟨hml, hms, hmr⟩ := mutate_shape rate child d.coin d.rawVal
  obtain ⟨f, hf⟩ := calcFitness_isSome (mutate rate child d.coin d.rawVal) target (by omega)
  refine ⟨{ DNA := (mutate rate child d.coin d.rawVal).DNA, Fitness := f },
    pool[d.r1 % pool.length], ?_, ha, ?_, ?_, ?_⟩
  · simp only [hr, Option.bind_eq_bind, Option.some_bind, ha, hb, hchild]
    exact hf
  · show (mutate rate child d.coin d.rawVal).DNA.Pix.length = _
    rw [hml, hcl]
  · show (mutate rate child d.coin d.rawVal).DNA.Stride = _
    rw [hms, hcs]
  · show (mutate rate child d.coin d.rawVal).DNA.Rect = _
    rw [hmr, hcr]

end GeneticAlgo

namespace GeneticAlgo

set_option maxRecDepth 100000

/-- C12 as stated fails: a pool that is not empty does not suffice. On the pool of one
individual with an empty buffer `breed` panics in `rand.Intn(0)`, and on the pool of the
buffers `[1, 2]` and `[5]` it panics reading the second parent at the crossover index 1, so
`naturalSelection` returns no population. -/
theorem naturalSelection_panics :
    [individual 0] ≠ [] ∧
    naturalSelection 0 [individual 0] [individual 0] (rowImage []) exampleDraws = none ∧
    [(⟨rowImage [1, 2], 0⟩ : TwoD), ⟨rowImage [5], 0⟩] ≠ [] ∧
    naturalSelection 0 [⟨rowImage [1, 2], 0⟩, ⟨rowImage [5], 0⟩] [individual 0]
      (rowImage [0, 0])
      (fun _ => { r1 := 0, r2 := 1, mid := 1, coin := fun _ => 0, rawVal := fun _ => 0 })
      = none := by
  refine ⟨by decide, by decide, by decide, by decide⟩

/-- C12, amended: for `PopSize >= 0` `createPopulation` returns exactly `PopSize`
individuals; for every non-empty pool whose buffers all have the length of the target, that
length not being zero, and every population, `naturalSelection` returns a next population of
exactly `len(population)` individuals, each with a buffer of the length, stride and extent of
its first parent `pool[r1]`. -/
theorem population_size_fixed (target : RGBA) :
    (∀ (PopSize : Int) (bytes : Nat → Nat → Byte), 0 ≤ PopSize →
      ∃ population, createPopulation PopSize target bytes = some population ∧
        (population.length : Int) = PopSize) ∧
    (∀ (rate : ℚ) (pool population : List TwoD) (draws : Nat → ChildDraws), pool ≠ [] →
      (∀ t ∈ pool, t.DNA.Pix.length = target.Pix.length) → target.Pix.length ≠ 0 →
      ∃ next, naturalSelection rate pool population target draws = some next ∧
        next.length = population.length ∧
        ∀ (i : Nat) (child : TwoD), next[i]? = some child →
          ∃ a, pool[(draws i).r1 % pool.length]? = some a ∧
            child.DNA.Pix.length = a.DNA.Pix.length ∧
            child.DNA.Stride = a.DNA.Stride ∧ child.DNA.Rect = a.DNA.Rect) := by
  refine ⟨fun PopSize bytes h0 => createPopulation_length PopSize target bytes h0,
    fun rate pool population draws hpool hshape hn => ?_⟩
  obtain ⟨next, hnext, hlen, hget⟩ := allOrPanic_map_exists (List.range population.length)
    (fun i => do
      let r1 ← randIntn pool.length (draws i).r1
      let r2 ← randIntn pool.length (draws i).r2
      let a ← pool[r1]?
      let b ← pool[r2]?
      let child ← breed a b (draws i).mid
      let child := mutate rate child (draws i).coin (draws i).rawVal
      calcFitness child target)
    (fun i _ => by
      obtain ⟨c, a, hc, _⟩ := naturalSelection_child rate pool target (draws i) hpool hshape hn
      exact ⟨c, hc⟩)
  refine ⟨next, hnext, by rw [hlen, List.length_range], fun i child hchild => ?_⟩
  obtain ⟨j, hj, hfj⟩ := hget i child hchild
  have hij : j = i := by
    have hlt : i < population.length := by
      have := (List.getElem?_eq_some_iff.1 hj).1
      rwa [List.length_range] at this
    rw [List.getElem?_range hlt] at hj
    exact (Option.some.inj hj).symm
  subst hij
  obtain ⟨c, a, hc, ha, h1, h2, h3⟩ :=
    naturalSelection_child rate pool target (draws j) hpool hshape hn
  rw [hc] at hfj
  obtain rfl := Option.some.inj hfj
  exact ⟨a, ha, h1, h2, h3⟩

/-- Witness of the amended C12: two start individuals for the example target, and two
children bred from a pool of two buffers of the length of the target. -/
theorem population_size_fixed_witness :
    (∃ population, createPopulation 2 exampleTarget exampleBytes = some population ∧
      (population.length : Int) = 2) ∧
    ∃ next, naturalSelection 1 [⟨rowImage [1, 0, 0, 0], 1⟩, ⟨rowImage [0, 1, 0, 0], 1⟩]
        [individual 0, individual 0] exampleTarget exampleDraws = some next ∧
      next.length = [individual 0, individual 0].length ∧
      ∀ (i : Nat) (child : TwoD), next[i]? = some child →
        ∃ a, [(⟨rowImage [1, 0, 0, 0], 1⟩ : TwoD), ⟨rowImage [0, 1, 0, 0], 1⟩][
            (exampleDraws i).r1 % [(⟨rowImage [1, 0, 0, 0], 1⟩ : TwoD),
              ⟨rowImage [0, 1, 0, 0], 1⟩].length]? = some a ∧
          child.DNA.Pix.length = a.DNA.Pix.length ∧
          child.DNA.Stride = a.DNA.Stride ∧ child.DNA.Rect = a.DNA.Rect :=
  ⟨(population_size_fixed exampleTarget).1 2 exampleBytes (by decide),
    (population_size_fixed exampleTarget).2 1
      [⟨rowImage [1, 0, 0, 0], 1⟩, ⟨rowImage [0, 1, 0, 0], 1⟩] [individual 0, individual 0]
      exampleDraws (by decide) (by decide) (by decide)⟩

end GeneticAlgo
